import Mathlib

/-!
Verification development for the UrlAvailabilityChecker repository.

The orchestration core lives in the multi-session scraper source
(`safelyReadResultsFile`, `safelyWriteResultsFile`, `processDomainBatch`,
`run`).  This file gives a shallow embedding of that core:

* JSON documents and the on-disk result store are modelled explicitly;
* each fallible filesystem primitive (`writeFileSync`, `readFileSync`,
  `copyFileSync`, `mkdirSync`, `renameSync`) consults a failure oracle
  indexed by an operation counter, and appends an event to a trace, so
  that retry loops and atomic-replace behaviour are observable;
* the per-domain worker loop of `processDomainBatch` is modelled with
  explicit interference points for the other concurrent sessions;
* the orchestrator (`run`) is modelled as a pure function of the input
  file, the loaded store and an unexpected-exception flag.
-/

namespace UrlCheck

/-- A parsed JSON value, as produced by `JSON.parse`. -/
inductive Json where
  | null
  | bool (b : Bool)
  | num (n : Int)
  | str (s : String)
  | arr (elems : List Json)
  | obj (fields : List (String × Json))
deriving Repr

/-- A record of the result store.  The source's `DomainEntry` interface is
`{ domain: string, status: 'available' | 'unavailable' | 'unknown' | 'error' }`;
the status union is erased at runtime, so it is a plain string here. -/
structure DomainEntry where
  domain : String
  status : String
deriving DecidableEq, Repr

/-- The in-memory result store: the array held in `domain.json`. -/
abbrev Store := List DomainEntry

/-- JSON encoding of one record, as `JSON.stringify` produces it. -/
def encodeEntry (e : DomainEntry) : Json :=
  Json.obj [("domain", Json.str e.domain), ("status", Json.str e.status)]

/-- JSON encoding of a whole store. -/
def encodeStore (s : Store) : Json :=
  Json.arr (s.map encodeEntry)

/-- Abstraction of a file's text for the purposes of `JSON.parse`:
either empty/whitespace-only text, text that parses to a JSON value, or
non-blank text on which `JSON.parse` throws. -/
inductive Content where
  | blank
  | jsonDoc (j : Json)
  | garbage (raw : String)
deriving Repr

/-- The document written for an empty store (`JSON.stringify([], null, 4)`). -/
def emptyDoc : Content := Content.jsonDoc (Json.arr [])

abbrev Path := String

/-- A tiny filesystem: an association list of files plus the set of
existing directories. -/
structure FS where
  files : List (Path × Content)
  dirs : List Path
deriving Repr

/-- Association-list lookup on file entries. -/
def lookupFile : List (Path × Content) → Path → Option Content
  | [], _ => none
  | (q, c) :: rest, p => if q = p then some c else lookupFile rest p

/-- Association-list update (create or overwrite) on file entries. -/
def updateFile : List (Path × Content) → Path → Content → List (Path × Content)
  | [], p, c => [(p, c)]
  | (q, d) :: rest, p, c =>
      if q = p then (p, c) :: rest else (q, d) :: updateFile rest p c

/-- Association-list removal on file entries. -/
def removeFile : List (Path × Content) → Path → List (Path × Content)
  | [], _ => []
  | (q, d) :: rest, r =>
      if q = r then removeFile rest r else (q, d) :: removeFile rest r

/-- Content of a file, when it exists. -/
def fsRead (fs : FS) (p : Path) : Option Content :=
  lookupFile fs.files p

/-- `fs.existsSync` for files. -/
def fsHasFile (fs : FS) (p : Path) : Bool :=
  (fsRead fs p).isSome

/-- Write (create or overwrite) a file. -/
def fsWriteFile (fs : FS) (p : Path) (c : Content) : FS :=
  { fs with files := updateFile fs.files p c }

/-- Remove a file. -/
def fsEraseFile (fs : FS) (p : Path) : FS :=
  { fs with files := removeFile fs.files p }

/-- `fs.renameSync src dst`: dst takes src's content, src disappears. -/
def fsRename (fs : FS) (src dst : Path) : FS :=
  match fsRead fs src with
  | none => fs
  | some c => fsEraseFile (fsWriteFile fs dst c) src

/-- `fs.mkdirSync`. -/
def fsMkdir (fs : FS) (d : Path) : FS :=
  { fs with dirs := fs.dirs ++ [d] }

/-- Split a character list at a separator character. -/
def splitCharAux (sep : Char) : List Char → List Char → List String
  | [], acc => [String.mk acc.reverse]
  | c :: cs, acc =>
      if c = sep then String.mk acc.reverse :: splitCharAux sep cs []
      else splitCharAux sep cs (c :: acc)

/-- `s.split(sep)` for a one-character separator. -/
def splitOnChar (sep : Char) (s : String) : List String :=
  splitCharAux sep s.data []

/-- Join path segments with slashes. -/
def joinWithSlash : List String → String
  | [] => ""
  | [x] => x
  | x :: xs => x ++ "/" ++ joinWithSlash xs

/-- `path.dirname`: everything before the last slash. -/
def dirname (p : Path) : Path :=
  let parts := splitOnChar '/' p
  if parts.length ≤ 1 then "." else joinWithSlash parts.dropLast

/-- The whitespace test of JavaScript's `String.prototype.trim`. -/
def isWhite (c : Char) : Bool :=
  c = ' ' ∨ c = '\t' ∨ c = '\n' ∨ c = '\r'

/-- `s.trim()`: strip leading and trailing whitespace. -/
def trimStr (s : String) : String :=
  String.mk (((s.data.dropWhile isWhite).reverse.dropWhile isWhite).reverse)

/-- Does the character list `cs` start with `pat`? -/
def charsHaveStart : List Char → List Char → Bool
  | _, [] => true
  | [], _ :: _ => false
  | a :: as, b :: bs => a = b && charsHaveStart as bs

/-- `s.startsWith(t)`. -/
def strStart (s t : String) : Bool :=
  charsHaveStart s.data t.data

/-- Drop the first `n` characters of a string. -/
def strDrop (s : String) (n : Nat) : String :=
  String.mk (s.data.drop n)

/-- ASCII lower-casing of one character. -/
def charLower (c : Char) : Char :=
  if 65 ≤ c.toNat ∧ c.toNat ≤ 90 then Char.ofNat (c.toNat + 32) else c

/-- ASCII `s.toLowerCase()`. -/
def strLower (s : String) : String :=
  String.mk (s.data.map charLower)

/-- Observable filesystem events: one per primitive call, plus `delayE`
for the backoff sleeps and `failedOp` for a primitive that threw. -/
inductive FsEvent where
  | mkdirE (d : Path)
  | copyE (src dst : Path)
  | writeE (p : Path) (c : Content)
  | renameE (src dst : Path)
  | readE (p : Path)
  | delayE (ms : Nat)
  | failedOp
deriving Repr

/-- Machine state threaded through the file operations: the filesystem,
the event trace so far, and the index of the next fallible operation
(consulted by the failure oracle). -/
structure Sys where
  fs : FS
  trace : List FsEvent
  idx : Nat
deriving Repr

/-- Transient-failure oracle: `oracle i = true` means the `i`-th fallible
filesystem primitive of the call throws (with no effect). -/
abbrev Oracle := Nat → Bool

/-- Run one fallible primitive: if the oracle says it throws, it has no
effect on the filesystem and reports failure; otherwise its effect is
applied and its event recorded. -/
def runOp (oracle : Oracle) (ev : FsEvent) (eff : FS → FS) (s : Sys) : Sys × Bool :=
  if oracle s.idx then
    ({ s with idx := s.idx + 1, trace := s.trace ++ [FsEvent.failedOp] }, false)
  else
    ({ fs := eff s.fs, trace := s.trace ++ [ev], idx := s.idx + 1 }, true)

/-! ### `safelyWriteResultsFile`

```
while (retries < maxRetries) {
  try {
    const dir = path.dirname(filePath);
    if (!fs.existsSync(dir)) { fs.mkdirSync(dir, { recursive: true }); }
    if (fs.existsSync(filePath)) {
      fs.copyFileSync(filePath, filePath + ".backup");
    }
    const tempFilePath = filePath + ".tmp";
    fs.writeFileSync(tempFilePath, JSON.stringify(data, null, 4));
    fs.renameSync(tempFilePath, filePath);
    return true;
  } catch (error) {
    retries++;
    await delay(1000 * retries);
  }
}
return false;
```
-/

/-- Run a straight-line sequence of fallible primitives, aborting at the
first one that throws. -/
def attemptOps (oracle : Oracle) : List (FsEvent × (FS → FS)) → Sys → Sys × Bool
  | [], s => (s, true)
  | (ev, eff) :: ops, s =>
      let r := runOp oracle ev eff s
      if r.2 then attemptOps oracle ops r.1 else (r.1, false)

/-- The effect on the filesystem of a fully successful op sequence. -/
def applyEffs : List (FsEvent × (FS → FS)) → FS → FS
  | [], fs => fs
  | (_, eff) :: ops, fs => applyEffs ops (eff fs)

/-- The straight-line body of one `safelyWriteResultsFile` try-block, as
the sequence of primitives it calls: `mkdirSync` when the directory is
missing, `copyFileSync` to the `.backup` sibling when the target exists,
`writeFileSync` of the serialized records to the `.tmp` sibling, and the
atomic `renameSync` onto the target.  The two `existsSync` guards are
evaluated on the state at entry to the try-block, which is equivalent
because `mkdirSync` does not change any file. -/
def writeOps (p : Path) (data : Store) (fs : FS) : List (FsEvent × (FS → FS)) :=
  (if fs.dirs.contains (dirname p) then []
   else [(FsEvent.mkdirE (dirname p), fun fs2 => fsMkdir fs2 (dirname p))])
  ++ (if fsHasFile fs p then
        [(FsEvent.copyE p (p ++ ".backup"),
          fun fs2 => fsWriteFile fs2 (p ++ ".backup") ((fsRead fs2 p).getD Content.blank))]
      else [])
  ++ [(FsEvent.writeE (p ++ ".tmp") (Content.jsonDoc (encodeStore data)),
       fun fs2 => fsWriteFile fs2 (p ++ ".tmp") (Content.jsonDoc (encodeStore data))),
      (FsEvent.renameE (p ++ ".tmp") p,
       fun fs2 => fsRename fs2 (p ++ ".tmp") p)]

/-- One iteration of the `safelyWriteResultsFile` try-block.  Returns the
new state and whether the attempt completed (reached `return true`). -/
def writeAttempt (oracle : Oracle) (p : Path) (data : Store) (s : Sys) : Sys × Bool :=
  attemptOps oracle (writeOps p data s.fs) s

/-- The retry loop of `safelyWriteResultsFile`: `retries` counts failures
so far, `fuel` is the number of attempts left (`maxRetries - retries`).
A failed attempt sleeps `1000 * retries` ms (after the increment). -/
def writeLoop (oracle : Oracle) (p : Path) (data : Store) :
    Nat → Nat → Sys → Sys × Bool
  | _, 0, s => (s, false)
  | retries, fuel + 1, s =>
      let att := writeAttempt oracle p data s
      if att.2 then (att.1, true)
      else
        let r := retries + 1
        writeLoop oracle p data r fuel
          { att.1 with trace := att.1.trace ++ [FsEvent.delayE (1000 * r)] }

/-- `safelyWriteResultsFile(filePath, data, maxRetries = 3)`. -/
def safelyWriteResultsFile (oracle : Oracle) (p : Path) (data : Store) (fs : FS) :
    Sys × Bool :=
  writeLoop oracle p data 0 3 { fs := fs, trace := [], idx := 0 }

/-! ### `safelyReadResultsFile`

Absent file: create the directory and an empty document, return `[]`.
Blank file: return `[]`.  `JSON.parse` success: return the parsed value
unvalidated.  Parse failure: copy the corrupt file to
`filePath + ".backup." + Date.now()`, reset the target to an empty
document, return `[]`.  Any primitive throwing aborts the attempt; after
3 failed attempts (with a fixed 1000 ms delay after each) return `[]`. -/

/-- Result of one try-block iteration of `safelyReadResultsFile`. -/
inductive ReadStep where
  | value (j : Json)
  | threw
deriving Repr

/-- The branch of the inner try/catch taken after `readFileSync`, keyed
by the file's content.  A successfully parsed value is logged with
`results.length` *inside* the parse try-block before being returned; for
the parsed value `null` that property access throws a `TypeError`, so
the bare JSON document `null` — alone among successfully parsed values —
is diverted to the same quarantine-and-reset path as a parse failure and
`[]` is returned.  Every other parsed value is returned unchanged with
no write and no validation. -/
def readOpsContent (now : Nat) (p : Path) :
    Option Content → List (FsEvent × (FS → FS)) × Json
  | some (Content.jsonDoc Json.null) =>
      -- `results.length` throws on `null`: caught by the parse catch,
      -- which quarantines the file and resets the target
      ([(FsEvent.readE p, id),
        (FsEvent.copyE p (p ++ ".backup." ++ toString now),
         fun fs2 => fsWriteFile fs2 (p ++ ".backup." ++ toString now)
           (Content.jsonDoc Json.null)),
        (FsEvent.writeE p emptyDoc, fun fs2 => fsWriteFile fs2 p emptyDoc)],
       Json.arr [])
  | some (Content.jsonDoc j) => ([(FsEvent.readE p, id)], j)
  | some (Content.garbage raw) =>
      ([(FsEvent.readE p, id),
        (FsEvent.copyE p (p ++ ".backup." ++ toString now),
         fun fs2 => fsWriteFile fs2 (p ++ ".backup." ++ toString now)
           (Content.garbage raw)),
        (FsEvent.writeE p emptyDoc, fun fs2 => fsWriteFile fs2 p emptyDoc)],
       Json.arr [])
  | _ => ([(FsEvent.readE p, id)], Json.arr [])

/-- The straight-line body of one `safelyReadResultsFile` try-block, as
the sequence of primitives it calls together with the value that the
try-block returns if every primitive succeeds.  The branch is decided by
the state at entry: file absent — `mkdirSync` when the directory is
missing then `writeFileSync` of an empty document, returning `[]`; file
blank — `readFileSync` only, returning `[]`; `JSON.parse` success —
`readFileSync` only, returning the parsed value unvalidated, except for
the bare document `null`, where the `results.length` log inside the
parse try-block throws and the quarantine-and-reset path runs (see
`readOpsContent`); `JSON.parse` failure — `readFileSync`,
`copyFileSync` of the corrupt file to the timestamped quarantine path,
`writeFileSync` resetting the target to an empty document, returning
`[]`.  No primitive before the branch point changes the target file, so
deciding the branch at entry is equivalent. -/
def readOps (now : Nat) (p : Path) (fs : FS) :
    List (FsEvent × (FS → FS)) × Json :=
  if !fsHasFile fs p then
    ((if fs.dirs.contains (dirname p) then []
      else [(FsEvent.mkdirE (dirname p), fun fs2 => fsMkdir fs2 (dirname p))])
     ++ [(FsEvent.writeE p emptyDoc, fun fs2 => fsWriteFile fs2 p emptyDoc)],
     Json.arr [])
  else readOpsContent now p (fsRead fs p)

/-- One iteration of the `safelyReadResultsFile` try-block.  `now` is the
value of `Date.now()` used for the quarantine path. -/
def readAttempt (oracle : Oracle) (now : Nat) (p : Path) (s : Sys) : Sys × ReadStep :=
  ((attemptOps oracle (readOps now p s.fs).1 s).1,
   if (attemptOps oracle (readOps now p s.fs).1 s).2 then
     ReadStep.value (readOps now p s.fs).2
   else ReadStep.threw)

/-- The retry loop of `safelyReadResultsFile`: a fixed 1000 ms delay after
each failed attempt; after exhausting the attempts, return `[]`. -/
def readLoop (oracle : Oracle) (now : Nat) (p : Path) : Nat → Sys → Sys × Json
  | 0, s => (s, Json.arr [])
  | fuel + 1, s =>
      match readAttempt oracle now p s with
      | (s1, ReadStep.value j) => (s1, j)
      | (s1, ReadStep.threw) =>
          readLoop oracle now p fuel
            { s1 with trace := s1.trace ++ [FsEvent.delayE 1000] }

/-- `safelyReadResultsFile(filePath, maxRetries = 3)`. -/
def safelyReadResultsFile (oracle : Oracle) (now : Nat) (p : Path) (fs : FS) :
    Sys × Json :=
  readLoop oracle now p 3 { fs := fs, trace := [], idx := 0 }

/-! ### The session worker: `processDomainBatch`

The per-domain loop body (after a successful session initialisation):

```
for (const domain of domains) {
  try {
    if (checkedDomainsSet.has(domain)) { continue; }
    const status = await checkDomainAvailability(domain, stagehand);
    const newEntry = { domain, status };
    currentResults = await safelyReadResultsFile(outputPath);
    checkedDomainsSet = new Set(currentResults.map(entry => entry.domain));
    if (!checkedDomainsSet.has(domain)) {
      currentResults.push(newEntry);
      await safelyWriteResultsFile(outputPath, currentResults);
      checkedDomainsSet.add(domain);
    }
  } catch (domainError) {
    try {
      currentResults = await safelyReadResultsFile(outputPath);
      checkedDomainsSet = new Set(currentResults.map(entry => entry.domain));
      if (!checkedDomainsSet.has(domain)) {
        currentResults.push({ domain, status: 'error' });
        await safelyWriteResultsFile(outputPath, currentResults);
        checkedDomainsSet.add(domain);
      }
    } catch (saveError) { /* swallowed */ }
  }
}
```

The model works at the store level: a load returns the current contents
of the shared file (or `[]` if its retries were exhausted), a save
replaces them (or does nothing if its retries were exhausted).  Other
concurrent sessions are the environment; they may rewrite the shared
store at the worker's suspension points (`envBefore` covers the awaits
between the previous iteration and this iteration's skip check,
`envDuring` covers the remote availability check).  The availability
checker itself catches all its failures and returns a status string, so
the only reachable throw points of the try-block are the statements
around the re-load (`.map` on a non-array parse result, a broken session
object); `bodyThrows` raises there, before any mutation, and
`catchThrows` likewise for the re-load inside the catch handler. -/

/-- Per-domain oracle for one iteration of the worker loop. -/
structure StepOracle where
  /-- interference by other sessions before this iteration's skip check -/
  envBefore : Store → Store
  /-- status string returned by `checkDomainAvailability` (never raises) -/
  checkStatus : String
  /-- interference by other sessions during the remote check -/
  envDuring : Store → Store
  /-- an unexpected failure raised in the try body (at the re-load) -/
  bodyThrows : Bool
  /-- the body re-load exhausts its retries and returns `[]` -/
  readFails : Bool
  /-- the body save exhausts its retries and returns `false` -/
  writeFails : Bool
  /-- a further failure raised inside the catch handler (at its re-load) -/
  catchThrows : Bool
  /-- the catch re-load exhausts its retries and returns `[]` -/
  catchReadFails : Bool
  /-- the catch save exhausts its retries and returns `false` -/
  catchWriteFails : Bool

/-- Observable events of the worker loop. -/
inductive WEvent where
  | skipped (d : String)
  | checkInvoked (d : String)
  | saved (d : String) (status : String)
  | discarded (d : String)
  | errorSaved (d : String)
  | errorDiscarded (d : String)
  | errorSaveFailed (d : String)
deriving DecidableEq, Repr

/-- The domain an event belongs to. -/
def evDomain : WEvent → String
  | WEvent.skipped d => d
  | WEvent.checkInvoked d => d
  | WEvent.saved d _ => d
  | WEvent.discarded d => d
  | WEvent.errorSaved d => d
  | WEvent.errorDiscarded d => d
  | WEvent.errorSaveFailed d => d

/-- Worker-visible state: the shared store (the file), the worker's local
`currentResults` variable, its local `checkedDomainsSet`, and the event
trace. -/
structure WState where
  shared : Store
  currentResults : Store
  checked : List String
  trace : List WEvent
deriving Repr

/-- One iteration of the worker's per-domain loop. -/
def domainStep (o : StepOracle) (d : String) (w : WState) : WState :=
  let shared0 := o.envBefore w.shared
  if d ∈ w.checked then
    -- already in the locally cached set: skip
    { w with shared := shared0, trace := w.trace ++ [WEvent.skipped d] }
  else
    -- invoke the availability checker; other sessions act meanwhile
    let shared1 := o.envDuring shared0
    let trace1 := w.trace ++ [WEvent.checkInvoked d]
    if o.bodyThrows then
      -- unexpected failure: best-effort persist of an error record
      if o.catchThrows then
        { shared := shared1, currentResults := w.currentResults,
          checked := w.checked, trace := trace1 ++ [WEvent.errorSaveFailed d] }
      else
        let cur := if o.catchReadFails then [] else shared1
        let checked := cur.map (fun e => e.domain)
        if d ∈ checked then
          { shared := shared1, currentResults := cur, checked := checked,
            trace := trace1 ++ [WEvent.errorDiscarded d] }
        else
          let cur' := cur ++ [⟨d, "error"⟩]
          { shared := if o.catchWriteFails then shared1 else cur',
            currentResults := cur', checked := checked ++ [d],
            trace := trace1 ++ [WEvent.errorSaved d] }
    else
      -- re-load, and save only if the domain is still absent
      let cur := if o.readFails then [] else shared1
      let checked := cur.map (fun e => e.domain)
      if d ∈ checked then
        { shared := shared1, currentResults := cur, checked := checked,
          trace := trace1 ++ [WEvent.discarded d] }
      else
        let cur' := cur ++ [⟨d, o.checkStatus⟩]
        { shared := if o.writeFails then shared1 else cur',
          currentResults := cur', checked := checked ++ [d],
          trace := trace1 ++ [WEvent.saved d o.checkStatus] }

/-- The worker loop over its partition; `os i` is the oracle of the
iteration processing the `i`-th domain. -/
def runBatchAux (os : Nat → StepOracle) : Nat → WState → List String → WState
  | _, w, [] => w
  | i, w, d :: ds => runBatchAux os (i + 1) (domainStep (os i) d w) ds

/-- `processDomainBatch` after a successful session initialisation:
the baseline read (`envInit` is the interference before it,
`initReadFails` its retry exhaustion) followed by the per-domain loop. -/
def runBatch (envInit : Store → Store) (initReadFails : Bool)
    (os : Nat → StepOracle) (domains : List String) (shared0 : Store) : WState :=
  let shared := envInit shared0
  let cur := if initReadFails then [] else shared
  runBatchAux os 0
    { shared := shared, currentResults := cur,
      checked := cur.map (fun e => e.domain), trace := [] } domains

/-! ### The orchestrator: `run` -/

/-- `domainsContent.split('\n').map(d => d.trim()).filter(Boolean)`. -/
def parseDomains (content : String) : List String :=
  ((splitOnChar '\n' content).map trimStr).filter (fun d => d ≠ "")

/-- `[...new Set(domains)]`: de-duplication under exact string equality,
keeping the first occurrence, preserving insertion order. -/
def dedupFirstAux (seen : List String) : List String → List String
  | [] => []
  | d :: ds =>
      if d ∈ seen then dedupFirstAux seen ds
      else d :: dedupFirstAux (seen ++ [d]) ds

/-- De-duplicated domain list, first occurrences in input order. -/
def dedupFirst (l : List String) : List String :=
  dedupFirstAux [] l

/-- `existingResults.filter(entry => entry.status !== 'error')`. -/
def filterValid (s : Store) : Store :=
  s.filter (fun e => e.status ≠ "error")

/-- The condition under which `run` saves the filtered baseline back:
`validResults.length < existingResults.length`. -/
def baselineResaved (s : Store) : Bool :=
  (filterValid s).length < s.length

/-- `uniqueDomains.filter(domain => !checkedDomainsSet.has(domain))`. -/
def domainsToCheck (uniq : List String) (valid : Store) : List String :=
  uniq.filter (fun d => d ∉ valid.map (fun e => e.domain))

/-- `domain.replace(/^(https?:\/\/)?(www\.)?/, '')` — the case-sensitive
normalisation applied when building the registrar search URL. -/
def cleanDomain (d : String) : String :=
  let d1 :=
    if strStart d "https://" then strDrop d 8
    else if strStart d "http://" then strDrop d 7
    else d
  if strStart d1 "www." then strDrop d1 4 else d1

/-- The Name.com search URL navigated to for a domain. -/
def searchUrl (d : String) : String :=
  "https://www.name.com/domain/search/" ++ cleanDomain d

/-- The round-robin partitioner of `run`:
`K = Math.min(3, domainsToCheck.length)` batches, the domain at index
`i` pushed onto batch `i % K`. -/
def domainBatches (l : List String) : List (List String) :=
  let K := min 3 l.length
  (List.range K).map (fun s =>
    ((l.enum.filter (fun p => p.1 % K = s)).map Prod.snd))

/-- Outcome of the `run` try-block. -/
inductive RunResult where
  | missingInput
  | emptyInput
  | nothingToCheck (baselineSaved : Bool)
  | launched (baselineSaved : Bool) (toCheck : List String)
      (batches : List (List String))
  | caughtFailure
deriving Repr

/-- The try body of `run`, as a fallible computation.  `inputExists` is
whether `input/domains.txt` exists, `content` its text, `store` the
value returned by the initial `safelyReadResultsFile`, and `unexpected`
an exception raised anywhere inside the try body. -/
def tryBody (inputExists : Bool) (content : String) (store : Store)
    (unexpected : Bool) : Except Unit RunResult :=
  if unexpected then Except.error () else
  if !inputExists then Except.ok RunResult.missingInput else
  let ds := parseDomains content
  if ds.isEmpty then Except.ok RunResult.emptyInput else
  let uniq := dedupFirst ds
  let valid := filterValid store
  let toCheck := domainsToCheck uniq valid
  if toCheck.isEmpty then
    Except.ok (RunResult.nothingToCheck (baselineResaved store))
  else
    Except.ok (RunResult.launched (baselineResaved store) toCheck
      (domainBatches toCheck))

/-- `run()` as a promise: the catch clause logs any failure of the try
body and returns normally, so the promise always resolves. -/
def runMain (inputExists : Bool) (content : String) (store : Store)
    (unexpected : Bool) : Except Unit RunResult :=
  match tryBody inputExists content store unexpected with
  | Except.ok r => Except.ok r
  | Except.error _ => Except.ok RunResult.caughtFailure

/-- `run().catch(error => { ...; process.exit(1); })`: the handler forces
exit status 1 if the promise rejects; otherwise the process ends with
status 0. -/
def processExitCode (inputExists : Bool) (content : String) (store : Store)
    (unexpected : Bool) : Nat :=
  match runMain inputExists content store unexpected with
  | Except.ok _ => 0
  | Except.error _ => 1

/-! ### Specification-side operators used by the claims -/

/-- No two records of a store share a domain. -/
def StoreNodup (s : Store) : Prop :=
  (s.map (fun e => e.domain)).Nodup

instance (s : Store) : Decidable (StoreNodup s) := by
  unfold StoreNodup; infer_instance

/-- Does an event mutate the file at `p`? -/
def mutatesPath : FsEvent → Path → Bool
  | FsEvent.mkdirE _, _ => false
  | FsEvent.copyE _ dst, p => dst == p
  | FsEvent.writeE q _, p => q == p
  | FsEvent.renameE _ dst, p => dst == p
  | FsEvent.readE _, _ => false
  | FsEvent.delayE _, _ => false
  | FsEvent.failedOp, _ => false

/-- The tail is never longer than the list. -/
theorem tailLenLe {α : Type} (b : List α) : b.tail.length ≤ b.length := by
  cases b <;> simp [List.tail]

/-- Taking the tails of all lists can only shrink the total length. -/
theorem sumTailLe {α : Type} (bs : List (List α)) :
    ((bs.map List.tail).map List.length).sum ≤ (bs.map List.length).sum := by
  induction bs with
  | nil => simp
  | cons b rest ih =>
      simp only [List.map_cons, List.sum_cons]
      exact Nat.add_le_add (tailLenLe b) ih

/-- If some list is nonempty, taking all the tails strictly shrinks the
total length. -/
theorem sumTailLt {α : Type} (bs : List (List α))
    (h : bs.all List.isEmpty = false) :
    ((bs.map List.tail).map List.length).sum < (bs.map List.length).sum := by
  induction bs with
  | nil => simp at h
  | cons b rest ih =>
      simp only [List.map_cons, List.sum_cons]
      by_cases hb : b.isEmpty
      · have hrest : rest.all List.isEmpty = false := by
          simpa [List.all_cons, hb] using h
        exact Nat.add_lt_add_of_le_of_lt (tailLenLe b) (ih hrest)
      · have hlt : b.tail.length < b.length := by
          cases b with
          | nil => simp [List.isEmpty] at hb
          | cons x xs => simp [List.tail]
        exact Nat.add_lt_add_of_lt_of_le hlt (sumTailLe rest)

/-- Concatenation of partitions in round-robin order: repeatedly take the
heads of all partitions, then recurse on the tails. -/
def rrConcat {α : Type} (bs : List (List α)) : List α :=
  if h : bs.all List.isEmpty = true then []
  else bs.filterMap List.head? ++ rrConcat (bs.map List.tail)
termination_by (bs.map List.length).sum
decreasing_by
  exact sumTailLt bs (by simpa using h)

/-! ### Lemmas about the round-robin partitioner -/

/-- The sublist of elements whose positions (counting from offset `j`)
are congruent to `s` modulo `K`. -/
def sliceModFrom {α : Type} (K s : Nat) : Nat → List α → List α
  | _, [] => []
  | j, a :: xs =>
      if j % K = s then a :: sliceModFrom K s (j + 1) xs
      else sliceModFrom K s (j + 1) xs

/-- The batches of the round-robin partition, one per residue. -/
def batchesList {α : Type} (K : Nat) (l : List α) : List (List α) :=
  (List.range K).map (fun s => sliceModFrom K s 0 l)

theorem sliceModFromMem {α : Type} (K s : Nat) :
    ∀ (l : List α) (j : Nat) (a : α), a ∈ sliceModFrom K s j l → a ∈ l := by
  intro l
  induction l with
  | nil => intro j a h; simp [sliceModFrom] at h
  | cons b xs ih =>
      intro j a h
      simp only [sliceModFrom] at h
      by_cases hc : j % K = s
      · rw [if_pos hc] at h
        rcases List.mem_cons.mp h with h1 | h2
        · exact h1 ▸ List.mem_cons_self b xs
        · exact List.mem_cons_of_mem b (ih (j + 1) a h2)
      · rw [if_neg hc] at h
        exact List.mem_cons_of_mem b (ih (j + 1) a h)

/-- `sliceModFrom` depends on the offset only through its residue. -/
theorem sliceModFromMod {α : Type} (K s : Nat) :
    ∀ (l : List α) (j : Nat), sliceModFrom K s j l = sliceModFrom K s (j % K) l := by
  intro l
  induction l with
  | nil => intro j; rfl
  | cons a xs ih =>
      intro j
      have hmod : j % K % K = j % K := Nat.mod_mod_of_dvd j dvd_rfl
      have hstep : (j + 1) % K = (j % K + 1) % K := by
        rw [Nat.add_mod j 1 K, Nat.add_mod (j % K) 1 K, hmod]
      simp only [sliceModFrom, hmod]
      by_cases hc : j % K = s
      · rw [if_pos hc, if_pos hc, ih (j + 1), ih (j % K + 1), hstep]
      · rw [if_neg hc, if_neg hc, ih (j + 1), ih (j % K + 1), hstep]

/-- Peeling the first (partial) chunk off a residue slice. -/
theorem sliceModFromPeel {α : Type} (K s : Nat) (hs : s < K) :
    ∀ (l : List α) (j : Nat), j < K →
      sliceModFrom K s j l =
        (if j ≤ s then ((l.take (K - j))[s - j]?).toList else [])
          ++ sliceModFrom K s 0 (l.drop (K - j)) := by
  intro l
  induction l with
  | nil =>
      intro j hj
      simp [sliceModFrom]
  | cons a xs ih =>
      intro j hj
      have hKj : K - j = (K - j - 1) + 1 := by omega
      by_cases hc : j % K = s
      · -- the head is taken: j = s
        have hj_eq : j = s := by rwa [Nat.mod_eq_of_lt hj] at hc
        subst hj_eq
        have hle : j ≤ j := Nat.le_refl j
        rw [show sliceModFrom K j j (a :: xs) = a :: sliceModFrom K j (j + 1) xs by
              simp [sliceModFrom, Nat.mod_eq_of_lt hj]]
        rw [if_pos hle, hKj, List.take_succ_cons, List.drop_succ_cons]
        rw [Nat.sub_self, List.getElem?_cons_zero]
        by_cases hlast : j + 1 < K
        · rw [ih (j + 1) hlast, if_neg (by omega)]
          simp only [List.nil_append, Option.toList_some, List.cons_append]
          rw [show K - (j + 1) = K - j - 1 by omega]
        · have hKeq : j + 1 = K := by omega
          have h0 : K - j - 1 = 0 := by omega
          rw [h0, List.drop_zero]
          rw [sliceModFromMod K j xs (j + 1), hKeq, Nat.mod_self]
          simp
      · -- the head is not taken: j ≠ s
        have hj_ne : j ≠ s := by rwa [Nat.mod_eq_of_lt hj] at hc
        rw [show sliceModFrom K s j (a :: xs) = sliceModFrom K s (j + 1) xs by
              simp [sliceModFrom, hc]]
        by_cases hlast : j + 1 < K
        · rw [ih (j + 1) hlast]
          rw [hKj, List.take_succ_cons, List.drop_succ_cons]
          by_cases hle : j ≤ s
          · have hlt : j < s := by omega
            rw [if_pos hle, if_pos (by omega : j + 1 ≤ s)]
            rw [show s - j = (s - (j + 1)) + 1 by omega, List.getElem?_cons_succ]
            rw [show K - (j + 1) = K - j - 1 by omega]
          · rw [if_neg hle, if_neg (by omega : ¬(j + 1 ≤ s))]
            rw [show K - (j + 1) = K - j - 1 by omega]
        · have hKeq : j + 1 = K := by omega
          have hsle : ¬(j ≤ s) := by omega
          rw [if_neg hsle]
          rw [sliceModFromMod K s xs (j + 1), hKeq, Nat.mod_self]
          rw [show K - j = 1 by omega]
          simp

/-- Chunk decomposition of a residue slice, with offset 0. -/
theorem sliceModFromChunk {α : Type} {K s : Nat} (hK : 0 < K) (hs : s < K)
    (l : List α) :
    sliceModFrom K s 0 l =
      ((l.take K)[s]?).toList ++ sliceModFrom K s 0 (l.drop K) := by
  have := sliceModFromPeel K s hs l 0 hK
  simpa using this

/-- The head of a residue slice is the `s`-th element of the first chunk. -/
theorem sliceModFromHead {α : Type} {K s : Nat} (hK : 0 < K) (hs : s < K)
    (l : List α) :
    (sliceModFrom K s 0 l).head? = (l.take K)[s]? := by
  rw [sliceModFromChunk hK hs]
  cases h : (l.take K)[s]? with
  | some a => simp
  | none =>
      have hlen : l.length ≤ s := by
        have h2 := List.getElem?_eq_none_iff.mp h
        rw [List.length_take] at h2
        omega
      have hdrop : l.drop K = [] := List.drop_eq_nil_of_le (by omega)
      simp [hdrop, sliceModFrom]

/-- The tail of a residue slice is the residue slice of the later chunks. -/
theorem sliceModFromTail {α : Type} {K s : Nat} (hK : 0 < K) (hs : s < K)
    (l : List α) :
    (sliceModFrom K s 0 l).tail = sliceModFrom K s 0 (l.drop K) := by
  rw [sliceModFromChunk hK hs]
  cases h : (l.take K)[s]? with
  | some a => simp
  | none =>
      have hlen : l.length ≤ s := by
        have h2 := List.getElem?_eq_none_iff.mp h
        rw [List.length_take] at h2
        omega
      have hdrop : l.drop K = [] := List.drop_eq_nil_of_le (by omega)
      simp [hdrop, sliceModFrom]

/-- Collecting the optional elements at indices `0, ..., K-1` gives the
first `K` elements. -/
theorem rangeFilterMapGet {α : Type} (K : Nat) (t : List α) :
    (List.range K).filterMap (fun s => t[s]?) = t.take K := by
  induction K with
  | zero => simp
  | succ n ih =>
      rw [List.range_succ, List.filterMap_append, ih, List.take_succ]
      cases h : t[n]? <;> simp [List.filterMap_cons, h]

theorem batchesListHeads {α : Type} {K : Nat} (hK : 0 < K) (l : List α) :
    (batchesList K l).filterMap List.head? = l.take K := by
  unfold batchesList
  rw [List.filterMap_map]
  have hcong : ∀ s ∈ List.range K,
      (List.head? ∘ fun s => sliceModFrom K s 0 l) s = (l.take K)[s]? := by
    intro s hsm
    have hs : s < K := List.mem_range.mp hsm
    exact sliceModFromHead hK hs l
  rw [List.filterMap_congr hcong, rangeFilterMapGet, List.take_take]
  simp

theorem batchesListTails {α : Type} {K : Nat} (hK : 0 < K) (l : List α) :
    (batchesList K l).map List.tail = batchesList K (l.drop K) := by
  unfold batchesList
  rw [List.map_map]
  apply List.map_congr_left
  intro s hsm
  have hs : s < K := List.mem_range.mp hsm
  exact sliceModFromTail hK hs l

theorem rrConcatEmpty {α : Type} (bs : List (List α))
    (h : bs.all List.isEmpty = true) : rrConcat bs = [] := by
  rw [rrConcat]
  simp [h]

theorem rrConcatStep {α : Type} (bs : List (List α))
    (h : bs.all List.isEmpty = false) :
    rrConcat bs = bs.filterMap List.head? ++ rrConcat (bs.map List.tail) := by
  rw [rrConcat]
  simp [h]

theorem batchesListNilEmpty {α : Type} (K : Nat) :
    ((batchesList K ([] : List α)).all List.isEmpty) = true := by
  rw [List.all_eq_true]
  intro b hb
  rcases List.mem_map.mp hb with ⟨s, _, rfl⟩
  rfl

theorem batchesListConsNonempty {α : Type} {K : Nat} (hK : 0 < K)
    (a : α) (xs : List α) :
    ((batchesList K (a :: xs)).all List.isEmpty) = false := by
  have h0 : sliceModFrom K 0 0 (a :: xs) =
      a :: sliceModFrom K 0 1 xs := by
    simp [sliceModFrom, Nat.mod_eq_of_lt hK]
  have hmem : sliceModFrom K 0 0 (a :: xs) ∈ batchesList K (a :: xs) :=
    List.mem_map.mpr ⟨0, List.mem_range.mpr hK, rfl⟩
  rcases hall : (batchesList K (a :: xs)).all List.isEmpty with _ | _
  · rfl
  · exfalso
    have := (List.all_eq_true.mp hall) _ hmem
    rw [h0] at this
    simp at this

/-- Round-robin concatenation of the residue slices rebuilds the list. -/
theorem batchesReconstruct {α : Type} (K : Nat) (hK : 0 < K) :
    ∀ (n : Nat) (l : List α), l.length ≤ n →
      rrConcat (batchesList K l) = l := by
  intro n
  induction n with
  | zero =>
      intro l hl
      have : l = [] := List.length_eq_zero.mp (Nat.le_zero.mp hl)
      subst this
      exact rrConcatEmpty _ (batchesListNilEmpty K)
  | succ n ih =>
      intro l hl
      cases l with
      | nil => exact rrConcatEmpty _ (batchesListNilEmpty K)
      | cons a xs =>
          rw [rrConcatStep _ (batchesListConsNonempty hK a xs)]
          rw [batchesListHeads hK, batchesListTails hK]
          rw [ih ((a :: xs).drop K) (by
            rw [List.length_drop]
            simp only [List.length_cons] at hl ⊢
            omega)]
          exact List.take_append_drop K (a :: xs)

/-- Length of a residue slice via the chunk decomposition. -/
theorem sliceModFromLenChunk {α : Type} {K s : Nat} (hK : 0 < K) (hs : s < K)
    (l : List α) :
    (sliceModFrom K s 0 l).length =
      (if s < (l.take K).length then 1 else 0)
        + (sliceModFrom K s 0 (l.drop K)).length := by
  rw [sliceModFromChunk hK hs, List.length_append]
  congr 1
  cases h : (l.take K)[s]? with
  | some a =>
      have hlt := (List.getElem?_eq_some.mp h).1
      rw [if_pos hlt]
      simp
  | none =>
      have h2 := List.getElem?_eq_none_iff.mp h
      rw [if_neg (Nat.not_lt.mpr h2)]
      simp

/-- Size skew of residue slices: sizes are non-increasing in the residue
and any two differ by at most one. -/
theorem sliceSkew {α : Type} (K : Nat) (hK : 0 < K) :
    ∀ (n : Nat) (l : List α), l.length ≤ n → ∀ s t : Nat, s < K → t < K → s ≤ t →
      (sliceModFrom K t 0 l).length ≤ (sliceModFrom K s 0 l).length ∧
      (sliceModFrom K s 0 l).length ≤ (sliceModFrom K t 0 l).length + 1 := by
  intro n
  induction n with
  | zero =>
      intro l hl s t hs ht hst
      have : l = [] := List.length_eq_zero.mp (Nat.le_zero.mp hl)
      subst this
      simp [sliceModFrom]
  | succ n ih =>
      intro l hl s t hs ht hst
      rw [sliceModFromLenChunk hK hs, sliceModFromLenChunk hK ht]
      by_cases hsmall : l.length ≤ K
      · -- last (possibly partial) chunk: every slice has at most one element
        have hdrop : l.drop K = [] := List.drop_eq_nil_of_le hsmall
        rw [hdrop]
        simp only [sliceModFrom, List.length_nil, Nat.add_zero]
        rw [List.length_take]
        split_ifs <;> omega
      · -- full first chunk: every slice gains exactly one element
        have htake : (l.take K).length = K := by
          rw [List.length_take]; omega
        rw [htake, if_pos hs, if_pos ht]
        have hrec := ih (l.drop K) (by rw [List.length_drop]; omega) s t hs ht hst
        omega

/-- Distinct residue slices of a duplicate-free list are disjoint. -/
theorem sliceDisjoint {α : Type} (K : Nat) (hK : 0 < K) :
    ∀ (n : Nat) (l : List α), l.length ≤ n → l.Nodup →
      ∀ s t : Nat, s < K → t < K → s ≠ t →
      ∀ a, a ∈ sliceModFrom K s 0 l → a ∉ sliceModFrom K t 0 l := by
  intro n
  induction n with
  | zero =>
      intro l hl _ s t _ _ _ a has
      have : l = [] := List.length_eq_zero.mp (Nat.le_zero.mp hl)
      subst this
      simp [sliceModFrom] at has
  | succ n ih =>
      intro l hl hnd s t hs ht hne a has hat
      have hnodup_app : ((l.take K) ++ (l.drop K)).Nodup := by
        rw [List.take_append_drop]; exact hnd
      have hdisj := List.disjoint_of_nodup_append hnodup_app
      rw [sliceModFromChunk hK hs] at has
      rw [sliceModFromChunk hK ht] at hat
      rcases List.mem_append.mp has with h1 | h2
      · have hsome : (l.take K)[s]? = some a := by
          have := Option.mem_toList.mp h1
          exact Option.mem_def.mp this
        rcases List.mem_append.mp hat with g1 | g2
        · have htome : (l.take K)[t]? = some a := by
            have := Option.mem_toList.mp g1
            exact Option.mem_def.mp this
          have hlt : s < (l.take K).length := (List.getElem?_eq_some.mp hsome).1
          have hnodup_take : (l.take K).Nodup :=
            List.Nodup.sublist (List.take_sublist K l) hnd
          exact hne (List.getElem?_inj hlt hnodup_take (hsome.trans htome.symm))
        · have hmem_take : a ∈ l.take K := by
            rcases List.getElem?_eq_some.mp hsome with ⟨hlt, rfl⟩
            exact List.getElem_mem hlt
          have hmem_drop : a ∈ l.drop K := sliceModFromMem K t _ 0 a g2
          exact hdisj hmem_take hmem_drop
      · rcases List.mem_append.mp hat with g1 | g2
        · have htome : (l.take K)[t]? = some a := by
            have := Option.mem_toList.mp g1
            exact Option.mem_def.mp this
          have hmem_take : a ∈ l.take K := by
            rcases List.getElem?_eq_some.mp htome with ⟨hlt, rfl⟩
            exact List.getElem_mem hlt
          have hmem_drop : a ∈ l.drop K := sliceModFromMem K s _ 0 a h2
          exact hdisj hmem_take hmem_drop
        · exact ih (l.drop K) (by rw [List.length_drop]; omega)
            (List.Nodup.sublist (List.drop_sublist K l) hnd)
            s t hs ht hne a h2 g2

/-- The enum-and-filter rendering of a residue slice. -/
theorem enumFilterSlice {α : Type} (K s : Nat) :
    ∀ (l : List α) (j : Nat),
      ((List.enumFrom j l).filter (fun p => p.1 % K = s)).map Prod.snd
        = sliceModFrom K s j l := by
  intro l
  induction l with
  | nil => intro j; rfl
  | cons a xs ih =>
      intro j
      simp only [List.enumFrom, List.filter, sliceModFrom]
      by_cases hc : j % K = s
      · simp [hc, ih (j + 1)]
      · simp [hc, ih (j + 1)]

/-- The partitioner of `run` computes the residue slices, in residue
order. -/
theorem domainBatchesEq (l : List String) :
    domainBatches l = batchesList (min 3 l.length) l := by
  unfold domainBatches batchesList
  apply List.map_congr_left
  intro s _
  have : l.enum = List.enumFrom 0 l := rfl
  rw [this, enumFilterSlice]

/-! ### Small lemmas about paths and the filesystem model -/

/-- Appending a nonempty suffix changes a path. -/
theorem appendNe (p t : Path) (ht : t.length ≠ 0) : p ++ t ≠ p := by
  intro h
  have hlen := congrArg String.length h
  rw [String.length_append] at hlen
  omega

theorem tmpNe (p : Path) : p ++ ".tmp" ≠ p := appendNe p ".tmp" (by decide)

theorem backupNe (p : Path) : p ++ ".backup" ≠ p :=
  appendNe p ".backup" (by decide)

theorem quarantineNe (p : Path) (now : Nat) :
    p ++ ".backup." ++ toString now ≠ p := by
  have : p ++ ".backup." ++ toString now = p ++ (".backup." ++ toString now) := by
    rw [String.append_assoc]
  rw [this]
  apply appendNe
  rw [String.length_append]
  have : ".backup.".length = 8 := by decide
  omega

theorem lookupUpdateSame (files : List (Path × Content)) (p : Path) (c : Content) :
    lookupFile (updateFile files p c) p = some c := by
  induction files with
  | nil => simp [updateFile, lookupFile]
  | cons qc rest ih =>
      rcases qc with ⟨q, d⟩
      by_cases hq : q = p
      · simp [updateFile, lookupFile, hq]
      · simp [updateFile, lookupFile, hq, ih]

theorem lookupUpdateOther (files : List (Path × Content)) (p q : Path)
    (c : Content) (h : q ≠ p) :
    lookupFile (updateFile files q c) p = lookupFile files p := by
  induction files with
  | nil => simp [updateFile, lookupFile, h]
  | cons rc rest ih =>
      rcases rc with ⟨r, d⟩
      by_cases hr : r = q
      · subst hr
        simp [updateFile, lookupFile, h]
      · by_cases hrp : r = p
        · simp [updateFile, lookupFile, hr, hrp, Ne.symm h]
        · simp [updateFile, lookupFile, hr, hrp, ih]

theorem lookupRemoveOther (files : List (Path × Content)) (p r : Path)
    (h : r ≠ p) :
    lookupFile (removeFile files r) p = lookupFile files p := by
  induction files with
  | nil => simp [removeFile]
  | cons qc rest ih =>
      rcases qc with ⟨q, d⟩
      by_cases hq : q = r
      · subst hq
        simp [removeFile, lookupFile, h, ih]
      · by_cases hqp : q = p
        · simp [removeFile, lookupFile, hq, hqp, Ne.symm h]
        · simp [removeFile, lookupFile, hq, hqp, ih]

theorem fsReadWriteSame (fs : FS) (p : Path) (c : Content) :
    fsRead (fsWriteFile fs p c) p = some c :=
  lookupUpdateSame fs.files p c

theorem fsReadWriteOther (fs : FS) (p q : Path) (c : Content) (h : q ≠ p) :
    fsRead (fsWriteFile fs q c) p = fsRead fs p :=
  lookupUpdateOther fs.files p q c h

theorem fsReadErase (fs : FS) (p r : Path) (h : r ≠ p) :
    fsRead (fsEraseFile fs r) p = fsRead fs p :=
  lookupRemoveOther fs.files p r h

theorem fsReadMkdir (fs : FS) (d : Path) (p : Path) :
    fsRead (fsMkdir fs d) p = fsRead fs p := rfl

/-! ### Trace lemmas for `safelyWriteResultsFile` -/

/-- The events `safelyWriteResultsFile` may emit for target path `p`. -/
def AllowedWriteEv (p : Path) (doc : Content) (ev : FsEvent) : Prop :=
  ev = FsEvent.failedOp ∨ ev = FsEvent.mkdirE (dirname p) ∨
  ev = FsEvent.copyE p (p ++ ".backup") ∨
  ev = FsEvent.writeE (p ++ ".tmp") doc ∨
  ev = FsEvent.renameE (p ++ ".tmp") p ∨
  ∃ ms, ev = FsEvent.delayE ms

/-- Trace extension of a straight-line op sequence: only the ops' own
events and `failedOp` markers are appended. -/
theorem attemptOpsTrace (oracle : Oracle) :
    ∀ (ops : List (FsEvent × (FS → FS))) (s : Sys),
      ∃ t, (attemptOps oracle ops s).1.trace = s.trace ++ t ∧
        ∀ ev ∈ t, ev = FsEvent.failedOp ∨ ∃ op ∈ ops, ev = op.1 := by
  intro ops
  induction ops with
  | nil => intro s; exact ⟨[], by simp [attemptOps], by simp⟩
  | cons op rest ih =>
      intro s
      rcases op with ⟨ev0, eff⟩
      by_cases h : oracle s.idx = true
      · refine ⟨[FsEvent.failedOp], by simp [attemptOps, runOp, h], ?_⟩
        intro ev hev
        simp only [List.mem_singleton] at hev
        exact Or.inl hev
      · have hred : attemptOps oracle ((ev0, eff) :: rest) s =
            attemptOps oracle rest
              { fs := eff s.fs, trace := s.trace ++ [ev0], idx := s.idx + 1 } := by
          simp [attemptOps, runOp, h]
        rw [hred]
        rcases ih { fs := eff s.fs, trace := s.trace ++ [ev0], idx := s.idx + 1 }
          with ⟨t, htr, hall⟩
        refine ⟨ev0 :: t, ?_, ?_⟩
        · rw [htr]; simp
        · intro ev hev
          rcases List.mem_cons.mp hev with rfl | hmem
          · exact Or.inr ⟨(ev, eff), List.mem_cons_self _ _, rfl⟩
          · rcases hall ev hmem with h1 | ⟨op, hop, heq⟩
            · exact Or.inl h1
            · exact Or.inr ⟨op, List.mem_cons_of_mem _ hop, heq⟩

/-- With no transient failures, a straight-line op sequence applies all
its effects, records all its events, and succeeds. -/
theorem attemptOpsSuccess (oracle : Oracle) (hfalse : ∀ i, oracle i = false) :
    ∀ (ops : List (FsEvent × (FS → FS))) (s : Sys),
      attemptOps oracle ops s =
        ({ fs := applyEffs ops s.fs, trace := s.trace ++ ops.map Prod.fst,
           idx := s.idx + ops.length }, true) := by
  intro ops
  induction ops with
  | nil => intro s; simp [attemptOps, applyEffs]
  | cons op rest ih =>
      intro s
      rcases op with ⟨ev0, eff⟩
      have hred : attemptOps oracle ((ev0, eff) :: rest) s =
          attemptOps oracle rest
            { fs := eff s.fs, trace := s.trace ++ [ev0], idx := s.idx + 1 } := by
        simp [attemptOps, runOp, hfalse s.idx]
      rw [hred, ih]
      simp only [applyEffs, List.map_cons, List.length_cons, List.append_assoc,
        List.singleton_append, Prod.mk.injEq, and_true]
      congr 1
      omega

/-- A straight-line op sequence whose first primitive throws fails with
no effect and a single `failedOp` marker. -/
theorem attemptOpsFirstFail (oracle : Oracle) (s : Sys)
    (htrue : oracle s.idx = true) (ev : FsEvent) (eff : FS → FS)
    (ops : List (FsEvent × (FS → FS))) :
    attemptOps oracle ((ev, eff) :: ops) s =
      ({ s with trace := s.trace ++ [FsEvent.failedOp], idx := s.idx + 1 }, false) := by
  simp [attemptOps, runOp, htrue]

/-- A failed straight-line op sequence has applied the effects of a
proper prefix of its ops. -/
theorem attemptOpsFailEffs (oracle : Oracle) :
    ∀ (ops : List (FsEvent × (FS → FS))) (s : Sys),
      (attemptOps oracle ops s).2 = false →
      ∃ k < ops.length, (attemptOps oracle ops s).1.fs = applyEffs (ops.take k) s.fs := by
  intro ops
  induction ops with
  | nil => intro s h; simp [attemptOps] at h
  | cons op rest ih =>
      intro s h
      rcases op with ⟨ev0, eff⟩
      by_cases ho : oracle s.idx = true
      · refine ⟨0, by simp, ?_⟩
        rw [attemptOpsFirstFail oracle s ho ev0 eff rest]
        simp [applyEffs]
      · have hred : attemptOps oracle ((ev0, eff) :: rest) s =
            attemptOps oracle rest
              { fs := eff s.fs, trace := s.trace ++ [ev0], idx := s.idx + 1 } := by
          simp [attemptOps, runOp, ho]
        rw [hred] at h ⊢
        rcases ih _ h with ⟨k, hk, heq⟩
        refine ⟨k + 1, by simpa using Nat.succ_lt_succ hk, ?_⟩
        simpa [applyEffs] using heq

theorem writeOpsNe (p : Path) (data : Store) (fs : FS) :
    writeOps p data fs ≠ [] := by
  unfold writeOps
  split_ifs <;> simp

theorem writeOpsEvents (p : Path) (data : Store) (fs : FS) :
    ∀ op ∈ writeOps p data fs,
      AllowedWriteEv p (Content.jsonDoc (encodeStore data)) op.1 := by
  unfold writeOps
  split_ifs <;> intro op hop <;> simp at hop <;>
    rcases hop with h | h | h | h <;> (try subst h) <;> simp [AllowedWriteEv]

/-- Trace extension through the whole write retry loop: only allowed
events and delays. -/
theorem writeLoopTrace (oracle : Oracle) (p : Path) (data : Store) :
    ∀ (fuel retries : Nat) (s : Sys),
      ∃ t, (writeLoop oracle p data retries fuel s).1.trace = s.trace ++ t ∧
        ∀ ev ∈ t, AllowedWriteEv p (Content.jsonDoc (encodeStore data)) ev := by
  intro fuel
  induction fuel with
  | zero => intro retries s; exact ⟨[], by simp [writeLoop], by simp⟩
  | succ n ih =>
      intro retries s
      have hatt := attemptOpsTrace oracle (writeOps p data s.fs) s
      rcases hatt with ⟨t1, htr1, hall1⟩
      rcases hA : writeAttempt oracle p data s with ⟨s1, ok⟩
      have htr1' : s1.trace = s.trace ++ t1 := by
        have : (writeAttempt oracle p data s).1.trace = s.trace ++ t1 := htr1
        rw [hA] at this
        exact this
      have hall1' : ∀ ev ∈ t1,
          AllowedWriteEv p (Content.jsonDoc (encodeStore data)) ev := by
        intro ev hev
        rcases hall1 ev hev with h1 | ⟨op, hop, heq⟩
        · exact Or.inl h1
        · exact heq ▸ writeOpsEvents p data s.fs op hop
      cases ok with
      | true =>
          refine ⟨t1, ?_, hall1'⟩
          simp only [writeLoop, hA]
          rw [if_pos trivial]
          exact htr1'
      | false =>
          rcases ih (retries + 1)
            { s1 with trace := s1.trace ++ [FsEvent.delayE (1000 * (retries + 1))] }
            with ⟨t2, htr2, hall2⟩
          refine ⟨t1 ++ [FsEvent.delayE (1000 * (retries + 1))] ++ t2, ?_, ?_⟩
          · simp only [writeLoop, hA]
            rw [if_neg Bool.false_ne_true]
            rw [htr2]
            simp [htr1']
          · intro ev hev
            rcases List.mem_append.mp hev with hev1 | hev2
            · rcases List.mem_append.mp hev1 with hev11 | hev12
              · exact hall1' ev hev11
              · simp only [List.mem_singleton] at hev12
                subst hev12
                exact Or.inr (Or.inr (Or.inr (Or.inr (Or.inr ⟨_, rfl⟩))))
            · exact hall2 ev hev2

/-- The only event of `safelyWriteResultsFile` that mutates the target
path is the atomic rename from the temporary sibling. -/
theorem safelyWriteMutations (oracle : Oracle) (p : Path) (data : Store) (fs0 : FS) :
    ∀ ev ∈ (safelyWriteResultsFile oracle p data fs0).1.trace,
      mutatesPath ev p = true → ev = FsEvent.renameE (p ++ ".tmp") p := by
  unfold safelyWriteResultsFile
  rcases writeLoopTrace oracle p data 3 0 { fs := fs0, trace := [], idx := 0 }
    with ⟨t, htr, hall⟩
  rw [htr]
  intro ev hev hmut
  simp only [List.nil_append] at hev
  rcases hall ev hev with h | h | h | h | h | ⟨ms, h⟩ <;> subst h
  · simp [mutatesPath] at hmut
  · simp [mutatesPath] at hmut
  · simp only [mutatesPath, beq_iff_eq] at hmut
    exact absurd hmut (backupNe p)
  · simp only [mutatesPath, beq_iff_eq] at hmut
    exact absurd hmut (tmpNe p)
  · rfl
  · simp [mutatesPath] at hmut

/-- Renaming `src` onto a different `dst` moves `src`'s content there. -/
theorem fsReadRenameDst (fs : FS) (src dst : Path) (h : src ≠ dst) (c : Content)
    (hsrc : fsRead fs src = some c) :
    fsRead (fsRename fs src dst) dst = some c := by
  unfold fsRename
  rw [hsrc]
  rw [fsReadErase _ _ _ h]
  exact fsReadWriteSame _ _ _

/-- A fully successful write attempt leaves the serialized records at the
target. -/
theorem applyWriteOps (p : Path) (data : Store) (fs : FS) :
    fsRead (applyEffs (writeOps p data fs) fs) p
      = some (Content.jsonDoc (encodeStore data)) := by
  unfold writeOps
  split_ifs <;>
    simp only [applyEffs, List.append_nil, List.nil_append, List.cons_append,
      List.singleton_append] <;>
    exact fsReadRenameDst _ _ _ (tmpNe p) _ (fsReadWriteSame _ _ _)

/-- The event list of one write attempt always ends with the temp-file
write followed by the rename onto the target. -/
theorem writeOpsShape (p : Path) (data : Store) (fs : FS) :
    ∃ t, (writeOps p data fs).map Prod.fst =
      t ++ [FsEvent.writeE (p ++ ".tmp") (Content.jsonDoc (encodeStore data)),
            FsEvent.renameE (p ++ ".tmp") p] := by
  unfold writeOps
  split_ifs
  · exact ⟨[FsEvent.copyE p (p ++ ".backup")], by simp⟩
  · exact ⟨[], by simp⟩
  · exact ⟨[FsEvent.mkdirE (dirname p), FsEvent.copyE p (p ++ ".backup")], by simp⟩
  · exact ⟨[FsEvent.mkdirE (dirname p)], by simp⟩

/-- With no transient failures, `safelyWriteResultsFile` returns `true`,
the target holds the serialized records, and the trace ends with the
temp-file write followed by the rename. -/
theorem safelyWriteSuccessEval (oracle : Oracle) (hfalse : ∀ i, oracle i = false)
    (p : Path) (data : Store) (fs0 : FS) :
    (safelyWriteResultsFile oracle p data fs0).2 = true ∧
    fsRead (safelyWriteResultsFile oracle p data fs0).1.fs p
      = some (Content.jsonDoc (encodeStore data)) ∧
    ∃ t, (safelyWriteResultsFile oracle p data fs0).1.trace =
      t ++ [FsEvent.writeE (p ++ ".tmp") (Content.jsonDoc (encodeStore data)),
            FsEvent.renameE (p ++ ".tmp") p] := by
  unfold safelyWriteResultsFile writeLoop writeAttempt
  rw [attemptOpsSuccess oracle hfalse]
  refine ⟨rfl, ?_, ?_⟩
  · exact applyWriteOps p data fs0
  · rcases writeOpsShape p data fs0 with ⟨t, ht⟩
    exact ⟨t, by simp [ht]⟩

/-- With every attempt throwing, one write attempt fails with no effect. -/
theorem writeAttemptFail (oracle : Oracle) (htrue : ∀ i, oracle i = true)
    (p : Path) (data : Store) (s : Sys) :
    writeAttempt oracle p data s =
      ({ s with trace := s.trace ++ [FsEvent.failedOp], idx := s.idx + 1 }, false) := by
  unfold writeAttempt
  rcases hne : writeOps p data s.fs with _ | ⟨⟨ev, eff⟩, rest⟩
  · exact absurd hne (writeOpsNe p data s.fs)
  · exact attemptOpsFirstFail oracle s (htrue s.idx) ev eff rest

/-- With every attempt throwing, `safelyWriteResultsFile` makes exactly 3
attempts with linearly growing delays, leaves the filesystem unchanged,
and returns `false`. -/
theorem safelyWriteExhaust (oracle : Oracle) (htrue : ∀ i, oracle i = true)
    (p : Path) (data : Store) (fs0 : FS) :
    (safelyWriteResultsFile oracle p data fs0).2 = false ∧
    (safelyWriteResultsFile oracle p data fs0).1.fs = fs0 ∧
    (safelyWriteResultsFile oracle p data fs0).1.trace =
      [FsEvent.failedOp, FsEvent.delayE (1000 * 1),
       FsEvent.failedOp, FsEvent.delayE (1000 * 2),
       FsEvent.failedOp, FsEvent.delayE (1000 * 3)] := by
  have hstep : ∀ (retries fuel : Nat) (s : Sys),
      writeLoop oracle p data retries (fuel + 1) s =
        writeLoop oracle p data (retries + 1) fuel
          { fs := s.fs,
            trace := s.trace ++
              [FsEvent.failedOp, FsEvent.delayE (1000 * (retries + 1))],
            idx := s.idx + 1 } := by
    intro retries fuel s
    simp only [writeLoop, writeAttemptFail oracle htrue p data]
    rw [if_neg Bool.false_ne_true]
    congr 1
    simp
  unfold safelyWriteResultsFile
  rw [show (3 : Nat) = 2 + 1 from rfl, hstep]
  rw [show (2 : Nat) = 1 + 1 from rfl, hstep]
  rw [show (1 : Nat) = 0 + 1 from rfl, hstep]
  simp [writeLoop]

/-! ### Lemmas for `safelyReadResultsFile` -/

theorem readOpsContentNe (now : Nat) (p : Path) (oc : Option Content) :
    (readOpsContent now p oc).1 ≠ [] := by
  rcases oc with _ | c
  · simp [readOpsContent]
  · cases c with
    | blank => simp [readOpsContent]
    | garbage raw => simp [readOpsContent]
    | jsonDoc j => cases j <;> simp [readOpsContent]

theorem readOpsNe (now : Nat) (p : Path) (fs : FS) : (readOps now p fs).1 ≠ [] := by
  unfold readOps
  split_ifs
  · simp
  · simp
  · exact readOpsContentNe now p (fsRead fs p)

/-- With no transient failures, `safelyReadResultsFile` performs exactly
one attempt, applying its effects and returning its value. -/
theorem safelyReadSuccessEval (oracle : Oracle) (hfalse : ∀ i, oracle i = false)
    (now : Nat) (p : Path) (fs0 : FS) :
    safelyReadResultsFile oracle now p fs0 =
      ({ fs := applyEffs (readOps now p fs0).1 fs0,
         trace := (readOps now p fs0).1.map Prod.fst,
         idx := (readOps now p fs0).1.length }, (readOps now p fs0).2) := by
  unfold safelyReadResultsFile readLoop readAttempt
  simp only [attemptOpsSuccess oracle hfalse]
  simp

/-- With every primitive throwing, one read attempt throws with no
effect. -/
theorem readAttemptFail (oracle : Oracle) (htrue : ∀ i, oracle i = true)
    (now : Nat) (p : Path) (s : Sys) :
    readAttempt oracle now p s =
      ({ s with trace := s.trace ++ [FsEvent.failedOp], idx := s.idx + 1 },
        ReadStep.threw) := by
  unfold readAttempt
  rcases hne : (readOps now p s.fs).1 with _ | ⟨⟨ev, eff⟩, rest⟩
  · exact absurd hne (readOpsNe now p s.fs)
  · rw [attemptOpsFirstFail oracle s (htrue s.idx) ev eff rest]
    rfl

/-- With every primitive throwing, `safelyReadResultsFile` makes exactly
3 attempts with fixed delays, leaves the filesystem unchanged, and
returns the empty array. -/
theorem safelyReadExhaust (oracle : Oracle) (htrue : ∀ i, oracle i = true)
    (now : Nat) (p : Path) (fs0 : FS) :
    (safelyReadResultsFile oracle now p fs0).2 = Json.arr [] ∧
    (safelyReadResultsFile oracle now p fs0).1.fs = fs0 ∧
    (safelyReadResultsFile oracle now p fs0).1.trace =
      [FsEvent.failedOp, FsEvent.delayE 1000, FsEvent.failedOp,
       FsEvent.delayE 1000, FsEvent.failedOp, FsEvent.delayE 1000] := by
  have hstep : ∀ (fuel : Nat) (s : Sys),
      readLoop oracle now p (fuel + 1) s =
        readLoop oracle now p fuel
          { fs := s.fs,
            trace := s.trace ++ [FsEvent.failedOp, FsEvent.delayE 1000],
            idx := s.idx + 1 } := by
    intro fuel s
    simp only [readLoop, readAttemptFail oracle htrue now p]
    congr 1
    simp
  unfold safelyReadResultsFile
  rw [show (3 : Nat) = 2 + 1 from rfl, hstep]
  rw [show (2 : Nat) = 1 + 1 from rfl, hstep]
  rw [show (1 : Nat) = 0 + 1 from rfl, hstep]
  simp [readLoop]

/-- A partially executed `JSON.parse` branch never changes the target
file (it writes only the quarantine path before the final reset). -/
theorem readOpsContentPreserve (now : Nat) (p : Path) (oc : Option Content)
    (fs : FS) :
    ∀ k < (readOpsContent now p oc).1.length,
      fsRead (applyEffs ((readOpsContent now p oc).1.take k) fs) p
        = fsRead fs p := by
  have h1 : ∀ k < 1, fsRead (applyEffs ([(FsEvent.readE p, id)].take k) fs) p
      = fsRead fs p := by
    intro k hk
    rcases k with _ | k2
    · rfl
    · omega
  rcases oc with _ | c
  · exact h1
  · cases c with
    | blank => exact h1
    | jsonDoc j =>
        cases j with
        | null =>
            intro k hk
            simp only [readOpsContent, List.length_cons, List.length_nil] at hk
            rcases k with _ | _ | _ | k2
            · rfl
            · rfl
            · show fsRead (applyEffs [(FsEvent.readE p, id),
                (FsEvent.copyE p (p ++ ".backup." ++ toString now),
                 fun fs2 => fsWriteFile fs2 (p ++ ".backup." ++ toString now)
                   (Content.jsonDoc Json.null))] fs) p = fsRead fs p
              simp only [applyEffs, id]
              exact fsReadWriteOther _ _ _ _ (quarantineNe p now)
            · omega
        | bool b => exact h1
        | num n => exact h1
        | str s => exact h1
        | arr elems => exact h1
        | obj fields => exact h1
    | garbage raw =>
        intro k hk
        simp only [readOpsContent, List.length_cons, List.length_nil] at hk
        rcases k with _ | _ | _ | k2
        · rfl
        · rfl
        · show fsRead (applyEffs [(FsEvent.readE p, id),
            (FsEvent.copyE p (p ++ ".backup." ++ toString now),
             fun fs2 => fsWriteFile fs2 (p ++ ".backup." ++ toString now)
               (Content.garbage raw))] fs) p = fsRead fs p
          simp only [applyEffs, id]
          exact fsReadWriteOther _ _ _ _ (quarantineNe p now)
        · omega

/-- A partially executed read attempt never changes the target file. -/
theorem readOpsPreserveTarget (now : Nat) (p : Path) (fs : FS) :
    ∀ k < (readOps now p fs).1.length,
      fsRead (applyEffs ((readOps now p fs).1.take k) fs) p = fsRead fs p := by
  unfold readOps
  split_ifs
  · intro k hk
    simp only [List.nil_append, List.length_cons, List.length_nil] at hk
    rcases k with _ | k2
    · rfl
    · omega
  · intro k hk
    simp only [List.singleton_append, List.length_cons, List.length_nil] at hk
    rcases k with _ | _ | k2
    · rfl
    · simp [applyEffs, fsReadMkdir]
    · omega
  · exact readOpsContentPreserve now p (fsRead fs p) fs

/-- A thrown read attempt leaves the target file unchanged. -/
theorem readAttemptThrewTarget (oracle : Oracle) (now : Nat) (p : Path) (s : Sys)
    (s1 : Sys) (h : readAttempt oracle now p s = (s1, ReadStep.threw)) :
    fsRead s1.fs p = fsRead s.fs p := by
  unfold readAttempt at h
  rcases hr : (attemptOps oracle (readOps now p s.fs).1 s) with ⟨s2, ok⟩
  rw [hr] at h
  cases ok with
  | true => simp at h
  | false =>
      have hs2 : s2 = s1 := by
        have := congrArg Prod.fst h
        simpa using this
      subst hs2
      have hfail : (attemptOps oracle (readOps now p s.fs).1 s).2 = false := by
        rw [hr]
      rcases attemptOpsFailEffs oracle (readOps now p s.fs).1 s hfail with ⟨k, hk, heq⟩
      rw [hr] at heq
      simp only at heq
      rw [heq]
      exact readOpsPreserveTarget now p s.fs k hk

/-- A completed read attempt returns either the empty array or the JSON
value parsed from the target file. -/
theorem readOpsContentValue (now : Nat) (p : Path) (oc : Option Content) :
    (readOpsContent now p oc).2 = Json.arr [] ∨
      oc = some (Content.jsonDoc (readOpsContent now p oc).2) := by
  rcases oc with _ | c
  · left; rfl
  · cases c with
    | blank => left; rfl
    | jsonDoc j =>
        cases j with
        | null => left; rfl
        | bool b => right; rfl
        | num n => right; rfl
        | str s => right; rfl
        | arr elems => right; rfl
        | obj fields => right; rfl
    | garbage raw => left; rfl

theorem readOpsValueShape (now : Nat) (p : Path) (fs : FS) :
    (readOps now p fs).2 = Json.arr [] ∨
      fsRead fs p = some (Content.jsonDoc (readOps now p fs).2) := by
  unfold readOps
  split_ifs
  · left; rfl
  · left; rfl
  · exact readOpsContentValue now p (fsRead fs p)

/-- Whatever the failure oracle does, `safelyReadResultsFile` returns
either the empty array or the value parsed from the original target
content: every failure path degrades to the empty store. -/
theorem readLoopNeverRaises (oracle : Oracle) (now : Nat) (p : Path) :
    ∀ (fuel : Nat) (s : Sys),
      (readLoop oracle now p fuel s).2 = Json.arr [] ∨
      fsRead s.fs p =
        some (Content.jsonDoc (readLoop oracle now p fuel s).2) := by
  intro fuel
  induction fuel with
  | zero => intro s; left; rfl
  | succ n ih =>
      intro s
      rcases hA : readAttempt oracle now p s with ⟨s1, res⟩
      cases res with
      | value j =>
          have hj : j = (readOps now p s.fs).2 := by
            unfold readAttempt at hA
            rcases hr : (attemptOps oracle (readOps now p s.fs).1 s) with ⟨s2, ok⟩
            rw [hr] at hA
            cases ok with
            | true =>
                have := congrArg Prod.snd hA
                simp only [if_pos rfl] at this
                cases this
                rfl
            | false => simp at hA
          have hres : readLoop oracle now p (n + 1) s = (s1, j) := by
            simp only [readLoop, hA]
          rw [hres]
          subst hj
          rcases readOpsValueShape now p s.fs with h1 | h2
          · left; exact h1
          · right; exact h2
      | threw =>
          have hres : readLoop oracle now p (n + 1) s =
              readLoop oracle now p n
                { s1 with trace := s1.trace ++ [FsEvent.delayE 1000] } := by
            simp only [readLoop, hA]
          rw [hres]
          rcases ih { s1 with trace := s1.trace ++ [FsEvent.delayE 1000] } with h1 | h2
          · left; exact h1
          · right
            rw [← readAttemptThrewTarget oracle now p s s1 hA]
            exact h2

/-! ### Lemmas about the worker loop -/

/-- Appending a record with a fresh domain preserves domain uniqueness. -/
theorem storeNodupAppend (cur : Store) (d st : String)
    (hnd : StoreNodup cur) (habs : d ∉ cur.map (fun e => e.domain)) :
    StoreNodup (cur ++ [⟨d, st⟩]) := by
  unfold StoreNodup at hnd ⊢
  rw [List.map_append]
  rw [List.nodup_append]
  refine ⟨hnd, by simp, ?_⟩
  intro x hx hx1
  simp only [List.map_cons, List.map_nil, List.mem_singleton] at hx1
  subst hx1
  exact habs hx

/-- A function on stores that preserves domain uniqueness. -/
def PreservesNodup (f : Store → Store) : Prop :=
  ∀ s, StoreNodup s → StoreNodup (f s)

/-- Every branch of the per-domain worker step writes a store with unique
domains, provided the interference of the other sessions does. -/
theorem domainStepNodup (o : StepOracle) (d : String) (w : WState)
    (hb : StoreNodup (o.envBefore w.shared))
    (hd : StoreNodup (o.envDuring (o.envBefore w.shared))) :
    StoreNodup (domainStep o d w).shared := by
  have hnil : StoreNodup ([] : Store) := by simp [StoreNodup]
  simp only [domainStep]
  split_ifs <;>
    first
      | exact hb
      | exact hd
      | exact storeNodupAppend _ _ _ hd (by assumption)
      | exact storeNodupAppend _ _ _ hnil (by simp)

/-- Domain uniqueness is preserved across a whole worker batch run. -/
theorem runBatchAuxNodup (os : Nat → StepOracle)
    (henv : ∀ i, PreservesNodup (os i).envBefore ∧ PreservesNodup (os i).envDuring) :
    ∀ (ds : List String) (i : Nat) (w : WState),
      StoreNodup w.shared → StoreNodup (runBatchAux os i w ds).shared := by
  intro ds
  induction ds with
  | nil => intro i w hw; exact hw
  | cons d rest ih =>
      intro i w hw
      apply ih (i + 1)
      have hb := (henv i).1 w.shared hw
      exact domainStepNodup (os i) d w hb ((henv i).2 _ hb)

/-- The worker step only appends to the trace. -/
theorem domainStepTraceMono (o : StepOracle) (d : String) (w : WState) :
    ∀ ev ∈ w.trace, ev ∈ (domainStep o d w).trace := by
  simp only [domainStep]
  split_ifs <;> intro ev hev <;> simp [hev]

/-- Every worker step leaves at least one trace event for its domain. -/
theorem domainStepTraceSelf (o : StepOracle) (d : String) (w : WState) :
    ∃ ev ∈ (domainStep o d w).trace, evDomain ev = d := by
  simp only [domainStep]
  split_ifs <;>
    first
      | (refine ⟨WEvent.skipped d, ?_, rfl⟩; simp; done)
      | (refine ⟨WEvent.checkInvoked d, ?_, rfl⟩; simp; done)

/-- The batch run only appends to the trace. -/
theorem runBatchAuxTraceMono (os : Nat → StepOracle) :
    ∀ (ds : List String) (i : Nat) (w : WState) (ev : WEvent),
      ev ∈ w.trace → ev ∈ (runBatchAux os i w ds).trace := by
  intro ds
  induction ds with
  | nil => intro i w ev hev; exact hev
  | cons d rest ih =>
      intro i w ev hev
      exact ih (i + 1) _ ev (domainStepTraceMono (os i) d w ev hev)

/-- Every domain of the partition is processed: its trace event survives
to the end of the batch, whatever the per-domain oracles do. -/
theorem runBatchAuxCovers (os : Nat → StepOracle) :
    ∀ (ds : List String) (i : Nat) (w : WState) (d : String), d ∈ ds →
      ∃ ev ∈ (runBatchAux os i w ds).trace, evDomain ev = d := by
  intro ds
  induction ds with
  | nil => intro i w d hd; simp at hd
  | cons a rest ih =>
      intro i w d hd
      rcases List.mem_cons.mp hd with rfl | hmem
      · rcases domainStepTraceSelf (os i) d w with ⟨ev, hev, hdom⟩
        exact ⟨ev, runBatchAuxTraceMono os rest (i + 1) _ ev hev, hdom⟩
      · exact ih (i + 1) _ d hmem

/-! ### Lemmas about de-duplication -/

theorem dedupFirstAuxSub (l : List String) :
    ∀ seen, List.Sublist (dedupFirstAux seen l) l := by
  induction l with
  | nil => intro seen; simp [dedupFirstAux]
  | cons d ds ih =>
      intro seen
      simp only [dedupFirstAux]
      split_ifs with h
      · exact List.Sublist.cons d (ih seen)
      · exact List.Sublist.cons₂ d (ih (seen ++ [d]))

theorem dedupFirstAuxMem (l : List String) :
    ∀ (seen : List String) (d : String),
      d ∈ dedupFirstAux seen l ↔ (d ∈ l ∧ d ∉ seen) := by
  induction l with
  | nil => intro seen d; simp [dedupFirstAux]
  | cons a ds ih =>
      intro seen d
      simp only [dedupFirstAux]
      split_ifs with h
      · rw [ih seen d]
        constructor
        · rintro ⟨h1, h2⟩
          exact ⟨List.mem_cons_of_mem a h1, h2⟩
        · rintro ⟨h1, h2⟩
          rcases List.mem_cons.mp h1 with rfl | h3
          · exact absurd h h2
          · exact ⟨h3, h2⟩
      · constructor
        · intro h1
          rcases List.mem_cons.mp h1 with rfl | h2
          · exact ⟨List.mem_cons_self _ _, h⟩
          · rw [ih (seen ++ [a]) d] at h2
            refine ⟨List.mem_cons_of_mem a h2.1, ?_⟩
            intro hmem
            exact h2.2 (List.mem_append_left [a] hmem)
        · rintro ⟨h1, h2⟩
          rcases List.mem_cons.mp h1 with rfl | h3
          · exact List.mem_cons_self _ _
          · by_cases hda : d = a
            · subst hda; exact List.mem_cons_self _ _
            · refine List.mem_cons_of_mem a ?_
              rw [ih (seen ++ [a]) d]
              refine ⟨h3, ?_⟩
              intro hmem
              rcases List.mem_append.mp hmem with h4 | h4
              · exact h2 h4
              · simp only [List.mem_singleton] at h4
                exact hda h4

theorem dedupFirstAuxNodup (l : List String) :
    ∀ seen, (dedupFirstAux seen l).Nodup := by
  induction l with
  | nil => intro seen; simp [dedupFirstAux]
  | cons a ds ih =>
      intro seen
      simp only [dedupFirstAux]
      split_ifs with h
      · exact ih seen
      · refine List.nodup_cons.mpr ⟨?_, ih (seen ++ [a])⟩
        intro hmem
        rw [dedupFirstAuxMem] at hmem
        exact hmem.2 (List.mem_append_right seen (by simp))

theorem dedupFirstSub (l : List String) : List.Sublist (dedupFirst l) l :=
  dedupFirstAuxSub l []

theorem dedupFirstMem (l : List String) (d : String) :
    d ∈ dedupFirst l ↔ d ∈ l := by
  rw [dedupFirst, dedupFirstAuxMem]
  simp

theorem dedupFirstNodup (l : List String) : (dedupFirst l).Nodup :=
  dedupFirstAuxNodup l []

/-- Seen prefixes can be traded for a filter: the accumulator only acts
through membership. -/
theorem dedupFirstAuxShift (l : List String) :
    ∀ (s1 s2 : List String),
      dedupFirstAux (s1 ++ s2) l =
        dedupFirstAux s2 (l.filter (fun x => x ∉ s1)) := by
  induction l with
  | nil => intro s1 s2; simp [dedupFirstAux]
  | cons a ds ih =>
      intro s1 s2
      by_cases h1 : a ∈ s1
      · have hmem : a ∈ s1 ++ s2 := List.mem_append_left s2 h1
        simp only [dedupFirstAux, if_pos hmem, List.filter_cons]
        rw [if_neg (by simp [h1])]
        exact ih s1 s2
      · by_cases h2 : a ∈ s2
        · have hmem : a ∈ s1 ++ s2 := List.mem_append_right s1 h2
          simp only [dedupFirstAux, if_pos hmem, List.filter_cons]
          rw [if_pos (by simp [h1])]
          simp only [dedupFirstAux, if_pos h2]
          exact ih s1 s2
        · have hmem : a ∉ s1 ++ s2 := by
            intro hc
            rcases List.mem_append.mp hc with hc1 | hc2
            · exact h1 hc1
            · exact h2 hc2
          simp only [dedupFirstAux, if_neg hmem, List.filter_cons]
          rw [if_pos (by simp [h1])]
          simp only [dedupFirstAux, if_neg h2]
          congr 1
          have := ih s1 (s2 ++ [a])
          rw [← List.append_assoc] at this
          exact this

/-- The keep-first recursion of `[...new Set(...)]`: the head survives
and its later duplicates are dropped. -/
theorem dedupFirstCons (a : String) (l : List String) :
    dedupFirst (a :: l) = a :: dedupFirst (l.filter (fun x => x ≠ a)) := by
  unfold dedupFirst
  rw [show dedupFirstAux [] (a :: l) = a :: dedupFirstAux [a] l by
    simp [dedupFirstAux]]
  have hshift := dedupFirstAuxShift l [a] []
  rw [List.append_nil] at hshift
  rw [hshift]
  congr 1
  apply congrArg
  apply List.filter_congr
  intro x _
  simp

/-! ### Evaluation lemmas for the read claims -/

/-- Absent file, no transient failures: an empty valid document is
created and the empty array returned. -/
theorem safelyReadAbsent (oracle : Oracle) (hfalse : ∀ i, oracle i = false)
    (now : Nat) (p : Path) (fs0 : FS) (h : fsHasFile fs0 p = false) :
    (safelyReadResultsFile oracle now p fs0).2 = Json.arr [] ∧
    fsRead (safelyReadResultsFile oracle now p fs0).1.fs p = some emptyDoc := by
  rw [safelyReadSuccessEval oracle hfalse]
  constructor
  · simp [readOps, h]
  · by_cases hc : dirname p ∈ fs0.dirs
    · simp [readOps, h, hc, applyEffs, fsReadWriteSame]
    · simp [readOps, h, hc, applyEffs, fsReadMkdir, fsReadWriteSame]

/-- Blank file, no transient failures: the empty array is returned and
nothing is written. -/
theorem safelyReadBlank (oracle : Oracle) (hfalse : ∀ i, oracle i = false)
    (now : Nat) (p : Path) (fs0 : FS) (h : fsRead fs0 p = some Content.blank) :
    (safelyReadResultsFile oracle now p fs0).2 = Json.arr [] ∧
    (safelyReadResultsFile oracle now p fs0).1.fs = fs0 := by
  rw [safelyReadSuccessEval oracle hfalse]
  have hhas : fsHasFile fs0 p = true := by simp [fsHasFile, h]
  constructor
  · simp [readOps, hhas, h, readOpsContent]
  · simp [readOps, hhas, h, readOpsContent, applyEffs]

/-- Corrupt file, no transient failures: the original content is
quarantined at the timestamped path, the target is reset to an empty
valid document, and the empty array is returned. -/
theorem safelyReadGarbage (oracle : Oracle) (hfalse : ∀ i, oracle i = false)
    (now : Nat) (p : Path) (fs0 : FS) (raw : String)
    (h : fsRead fs0 p = some (Content.garbage raw)) :
    (safelyReadResultsFile oracle now p fs0).2 = Json.arr [] ∧
    fsRead (safelyReadResultsFile oracle now p fs0).1.fs p = some emptyDoc ∧
    fsRead (safelyReadResultsFile oracle now p fs0).1.fs
      (p ++ ".backup." ++ toString now) = some (Content.garbage raw) := by
  rw [safelyReadSuccessEval oracle hfalse]
  have hhas : fsHasFile fs0 p = true := by simp [fsHasFile, h]
  refine ⟨?_, ?_, ?_⟩
  · simp [readOps, hhas, h, readOpsContent]
  · simp [readOps, hhas, h, readOpsContent, applyEffs, fsReadWriteSame]
  · simp only [readOps, hhas, Bool.not_true, Bool.false_eq_true, if_false, h,
      readOpsContent, applyEffs, id]
    rw [fsReadWriteOther _ _ _ _ (Ne.symm (quarantineNe p now))]
    exact fsReadWriteSame _ _ _

/-- The orchestrator's error filter preserves domain uniqueness. -/
theorem filterValidNodup (s : Store) (h : StoreNodup s) :
    StoreNodup (filterValid s) := by
  unfold StoreNodup at h ⊢
  exact List.Nodup.sublist (List.Sublist.map _ (List.filter_sublist _)) h

/-! ## The claims -/

/-- C1: `safelyWriteResultsFile` writes the serialized records to the
temporary sibling `p ++ ".tmp"` and then renames it onto the target, so
the target is mutated only by the atomic rename (first conjunct, for
every failure oracle); with no transient failures it succeeds, leaving
the serialized records at the target, with the temp-write immediately
followed by the rename (second conjunct); with persistent transient
failures it makes exactly 3 attempts, sleeping `1000 * n` ms after the
`n`-th failed attempt, leaves the filesystem unchanged, and returns
`false` instead of raising (third conjunct). -/
theorem claim_C1 (oracle : Oracle) (p : Path) (data : Store) (fs0 : FS) :
    (∀ ev ∈ (safelyWriteResultsFile oracle p data fs0).1.trace,
        mutatesPath ev p = true → ev = FsEvent.renameE (p ++ ".tmp") p)
    ∧ ((∀ i, oracle i = false) →
        (safelyWriteResultsFile oracle p data fs0).2 = true ∧
        fsRead (safelyWriteResultsFile oracle p data fs0).1.fs p
          = some (Content.jsonDoc (encodeStore data)) ∧
        ∃ t, (safelyWriteResultsFile oracle p data fs0).1.trace =
          t ++ [FsEvent.writeE (p ++ ".tmp") (Content.jsonDoc (encodeStore data)),
                FsEvent.renameE (p ++ ".tmp") p])
    ∧ ((∀ i, oracle i = true) →
        (safelyWriteResultsFile oracle p data fs0).2 = false ∧
        (safelyWriteResultsFile oracle p data fs0).1.fs = fs0 ∧
        (safelyWriteResultsFile oracle p data fs0).1.trace =
          [FsEvent.failedOp, FsEvent.delayE (1000 * 1),
           FsEvent.failedOp, FsEvent.delayE (1000 * 2),
           FsEvent.failedOp, FsEvent.delayE (1000 * 3)]) :=
  ⟨safelyWriteMutations oracle p data fs0,
   fun h => safelyWriteSuccessEval oracle h p data fs0,
   fun h => safelyWriteExhaust oracle h p data fs0⟩

theorem claim_C1_witness :
    ((∀ i : Nat, (fun _ : Nat => false) i = false) ∧
      (safelyWriteResultsFile (fun _ => false) "out/domain.json"
        [⟨"a.com", "available"⟩] { files := [], dirs := ["out"] }).2 = true) ∧
    ((∀ i : Nat, (fun _ : Nat => true) i = true) ∧
      (safelyWriteResultsFile (fun _ => true) "out/domain.json"
        [⟨"a.com", "available"⟩] { files := [], dirs := ["out"] }).2 = false) :=
  ⟨⟨fun _ => rfl,
    ((claim_C1 (fun _ => false) "out/domain.json" [⟨"a.com", "available"⟩]
      { files := [], dirs := ["out"] }).2.1 (fun _ => rfl)).1⟩,
   ⟨fun _ => rfl,
    ((claim_C1 (fun _ => true) "out/domain.json" [⟨"a.com", "available"⟩]
      { files := [], dirs := ["out"] }).2.2 (fun _ => rfl)).1⟩⟩

/-- C2: `safelyReadResultsFile` never raises (the model is a total
function and, for every failure oracle, returns either the parsed
document or the empty array — last conjunct); an absent file is replaced
by an empty valid document and the empty array returned; blank content
returns the empty array with no write; content that fails `JSON.parse`
is copied to the timestamped quarantine path, the target is reset to an
empty valid document, and the empty array is returned; and when every
attempt fails transiently it returns the empty array after the bounded
3 retries, leaving the filesystem unchanged. -/
theorem claim_C2 (oracle : Oracle) (now : Nat) (p : Path) (fs0 : FS) :
    ((∀ i, oracle i = false) → fsHasFile fs0 p = false →
      (safelyReadResultsFile oracle now p fs0).2 = Json.arr [] ∧
      fsRead (safelyReadResultsFile oracle now p fs0).1.fs p = some emptyDoc)
    ∧ ((∀ i, oracle i = false) → fsRead fs0 p = some Content.blank →
      (safelyReadResultsFile oracle now p fs0).2 = Json.arr [] ∧
      (safelyReadResultsFile oracle now p fs0).1.fs = fs0)
    ∧ (∀ raw, (∀ i, oracle i = false) → fsRead fs0 p = some (Content.garbage raw) →
      (safelyReadResultsFile oracle now p fs0).2 = Json.arr [] ∧
      fsRead (safelyReadResultsFile oracle now p fs0).1.fs p = some emptyDoc ∧
      fsRead (safelyReadResultsFile oracle now p fs0).1.fs
        (p ++ ".backup." ++ toString now) = some (Content.garbage raw))
    ∧ ((∀ i, oracle i = true) →
      (safelyReadResultsFile oracle now p fs0).2 = Json.arr [] ∧
      (safelyReadResultsFile oracle now p fs0).1.fs = fs0)
    ∧ ((safelyReadResultsFile oracle now p fs0).2 = Json.arr [] ∨
      fsRead fs0 p =
        some (Content.jsonDoc (safelyReadResultsFile oracle now p fs0).2)) :=
  ⟨fun hf h => safelyReadAbsent oracle hf now p fs0 h,
   fun hf h => safelyReadBlank oracle hf now p fs0 h,
   fun raw hf h => safelyReadGarbage oracle hf now p fs0 raw h,
   fun ht => ⟨(safelyReadExhaust oracle ht now p fs0).1,
              (safelyReadExhaust oracle ht now p fs0).2.1⟩,
   readLoopNeverRaises oracle now p 3 { fs := fs0, trace := [], idx := 0 }⟩

theorem claim_C2_witness :
    (∀ i : Nat, (fun _ : Nat => false) i = false) ∧
    fsRead { files := [("out/domain.json", Content.garbage "oops")], dirs := ["out"] }
      "out/domain.json" = some (Content.garbage "oops") ∧
    ((safelyReadResultsFile (fun _ => false) 99 "out/domain.json"
        { files := [("out/domain.json", Content.garbage "oops")], dirs := ["out"] }).2
      = Json.arr [] ∧
     fsRead (safelyReadResultsFile (fun _ => false) 99 "out/domain.json"
        { files := [("out/domain.json", Content.garbage "oops")], dirs := ["out"] }).1.fs
       "out/domain.json" = some emptyDoc ∧
     fsRead (safelyReadResultsFile (fun _ => false) 99 "out/domain.json"
        { files := [("out/domain.json", Content.garbage "oops")], dirs := ["out"] }).1.fs
       ("out/domain.json" ++ ".backup." ++ toString 99)
       = some (Content.garbage "oops")) :=
  ⟨fun _ => rfl, rfl,
   (claim_C2 (fun _ => false) 99 "out/domain.json"
     { files := [("out/domain.json", Content.garbage "oops")], dirs := ["out"] }).2.2.1
     "oops" (fun _ => rfl) rfl⟩

/-- C3 counterexample: the claim says the worker re-loads the Result
Store before the skip check and skips a domain already present.  Here
another session's record for `"a"` is already in the shared store at the
moment of the skip check (`envBefore` put it there after this worker's
baseline read), yet the worker does not skip: it invokes the checker
(`checkInvoked` in the trace) because the skip check consults only its
locally cached set, and merely discards the result at the second guard. -/
theorem claim_C3_cex :
    (let o : StepOracle :=
      { envBefore := fun s => s ++ [⟨"a", "available"⟩],
        checkStatus := "available", envDuring := id, bodyThrows := false,
        readFails := false, writeFails := false, catchThrows := false,
        catchReadFails := false, catchWriteFails := false };
     let w0 : WState :=
      { shared := [], currentResults := [], checked := [], trace := [] };
     ("a" ∈ (o.envBefore w0.shared).map (fun e => e.domain)) ∧
     (domainStep o "a" w0).trace =
       [WEvent.checkInvoked "a", WEvent.discarded "a"]) := by
  exact ⟨by decide, by decide⟩

/-- C3 (amended): the skip check consults the worker's locally cached
checked-set (initialised at worker start, refreshed only by the re-load
after each availability check), not a fresh load; a domain in that set
is skipped with no store mutation by this worker.  Otherwise, after the
checker returns, the worker re-loads the store and appends-and-saves
exactly when the domain is absent from that fresh load, discarding the
freshly computed result when it has appeared in the meantime. -/
theorem claim_C3 (o : StepOracle) (d : String) (w : WState)
    (hthrow : o.bodyThrows = false) :
    (d ∈ w.checked →
      domainStep o d w =
        { w with shared := o.envBefore w.shared,
                 trace := w.trace ++ [WEvent.skipped d] })
    ∧ (d ∉ w.checked →
      (d ∈ ((if o.readFails then ([] : Store)
              else o.envDuring (o.envBefore w.shared)).map (fun e => e.domain)) →
        (domainStep o d w).shared = o.envDuring (o.envBefore w.shared) ∧
        (domainStep o d w).trace =
          w.trace ++ [WEvent.checkInvoked d, WEvent.discarded d])
      ∧ (d ∉ ((if o.readFails then ([] : Store)
              else o.envDuring (o.envBefore w.shared)).map (fun e => e.domain)) →
        (domainStep o d w).shared =
          (if o.writeFails then o.envDuring (o.envBefore w.shared)
           else (if o.readFails then ([] : Store)
                 else o.envDuring (o.envBefore w.shared)) ++ [⟨d, o.checkStatus⟩]) ∧
        (domainStep o d w).trace =
          w.trace ++ [WEvent.checkInvoked d, WEvent.saved d o.checkStatus])) := by
  refine ⟨?_, ?_⟩
  · intro hmem
    simp only [domainStep, if_pos hmem]
  · intro hmem
    constructor
    · intro hpresent
      simp only [domainStep, if_neg hmem, hthrow, Bool.false_eq_true, if_false,
        if_pos hpresent]
      constructor <;> simp
    · intro habsent
      simp only [domainStep, if_neg hmem, hthrow, Bool.false_eq_true, if_false,
        if_neg habsent]
      constructor <;> simp

theorem claim_C3_witness :
    (let o : StepOracle :=
      { envBefore := id, checkStatus := "available", envDuring := id,
        bodyThrows := false, readFails := false, writeFails := false,
        catchThrows := false, catchReadFails := false, catchWriteFails := false };
     let w0 : WState :=
      { shared := [], currentResults := [], checked := [], trace := [] };
     o.bodyThrows = false ∧ "a" ∉ w0.checked ∧
     (domainStep o "a" w0).trace =
       [WEvent.checkInvoked "a", WEvent.saved "a" "available"]) := by
  refine ⟨rfl, by decide, ?_⟩
  have h := ((claim_C3
    { envBefore := id, checkStatus := "available", envDuring := id,
      bodyThrows := false, readFails := false, writeFails := false,
      catchThrows := false, catchReadFails := false, catchWriteFails := false }
    "a"
    { shared := [], currentResults := [], checked := [], trace := [] }
    rfl).2 (by decide)).2 (by decide)
  exact h.2

/-- C4: domain uniqueness is an invariant of the store.  Every branch of
the worker step (result append and error append, both guarded by the
freshly loaded store) writes a store with no duplicated domain, provided
the other sessions' interference also preserves uniqueness; the
orchestrator's error filter preserves it; and it propagates through a
whole worker batch run. -/
theorem claim_C4 (o : StepOracle) (d : String) (w : WState)
    (hb : StoreNodup (o.envBefore w.shared))
    (hd : StoreNodup (o.envDuring (o.envBefore w.shared))) :
    StoreNodup (domainStep o d w).shared
    ∧ (∀ s : Store, StoreNodup s → StoreNodup (filterValid s))
    ∧ (∀ (os : Nat → StepOracle),
        (∀ i, PreservesNodup (os i).envBefore ∧ PreservesNodup (os i).envDuring) →
        ∀ (ds : List String) (i : Nat) (w2 : WState), StoreNodup w2.shared →
          StoreNodup (runBatchAux os i w2 ds).shared) :=
  ⟨domainStepNodup o d w hb hd, filterValidNodup,
   fun os henv ds i w2 hw2 => runBatchAuxNodup os henv ds i w2 hw2⟩

theorem claim_C4_witness :
    (let o : StepOracle :=
      { envBefore := id, checkStatus := "available", envDuring := id,
        bodyThrows := false, readFails := false, writeFails := false,
        catchThrows := false, catchReadFails := false, catchWriteFails := false };
     let w0 : WState :=
      { shared := [⟨"b.com", "unavailable"⟩], currentResults := [],
        checked := [], trace := [] };
     StoreNodup (o.envBefore w0.shared) ∧
     StoreNodup (o.envDuring (o.envBefore w0.shared)) ∧
     StoreNodup (domainStep o "a.com" w0).shared) := by
  refine ⟨by decide, by decide, ?_⟩
  exact (claim_C4
    { envBefore := id, checkStatus := "available", envDuring := id,
      bodyThrows := false, readFails := false, writeFails := false,
      catchThrows := false, catchReadFails := false, catchWriteFails := false }
    "a.com"
    { shared := [⟨"b.com", "unavailable"⟩], currentResults := [],
      checked := [], trace := [] }
    (by decide) (by decide)).1

/-- C5: at orchestrator start every record with status `error` is removed
from the "already checked" view; the persist-back condition
(`validResults.length < existingResults.length`) holds as soon as one
error record existed; and the domain of an error record that is in the
(de-duplicated) input belongs to the run's unresolved set. -/
theorem claim_C5 (store : Store) (input : String) (d : String)
    (hnd : StoreNodup store)
    (he : (⟨d, "error"⟩ : DomainEntry) ∈ store)
    (hin : d ∈ dedupFirst (parseDomains input)) :
    (∀ e ∈ filterValid store, e.status ≠ "error")
    ∧ baselineResaved store = true
    ∧ d ∈ domainsToCheck (dedupFirst (parseDomains input)) (filterValid store) := by
  refine ⟨?_, ?_, ?_⟩
  · intro e he2
    have := List.of_mem_filter he2
    simpa using this
  · have : (filterValid store).length < store.length := by
      apply List.length_filter_lt_length_iff_exists.mpr
      exact ⟨⟨d, "error"⟩, he, by simp⟩
    simpa [baselineResaved] using this
  · unfold domainsToCheck
    rw [List.mem_filter]
    refine ⟨hin, ?_⟩
    simp only [decide_eq_true_eq]
    intro hmem
    rcases List.mem_map.mp hmem with ⟨e, hef, hedom⟩
    have hestore : e ∈ store := (List.mem_filter.mp hef).1
    have hestatus : e.status ≠ "error" := by
      have := List.of_mem_filter hef
      simpa using this
    have hinj := List.inj_on_of_nodup_map hnd
    have : e = ⟨d, "error"⟩ := hinj hestore he (by simpa using hedom)
    rw [this] at hestatus
    exact hestatus rfl

theorem claim_C5_witness :
    StoreNodup [(⟨"d.com", "error"⟩ : DomainEntry)] ∧
    (⟨"d.com", "error"⟩ : DomainEntry) ∈ [(⟨"d.com", "error"⟩ : DomainEntry)] ∧
    "d.com" ∈ dedupFirst (parseDomains "d.com") ∧
    "d.com" ∈ domainsToCheck (dedupFirst (parseDomains "d.com"))
      (filterValid [(⟨"d.com", "error"⟩ : DomainEntry)]) := by
  refine ⟨by decide, by decide, by decide, ?_⟩
  exact (claim_C5 [⟨"d.com", "error"⟩] "d.com" "d.com"
    (by decide) (by decide) (by decide)).2.2

/-- C6: for a non-empty duplicate-free unresolved sequence, the
partitioner produces `K = min 3 n` batches by sending index `i` to batch
`i mod K`; the sizes of any two batches differ by at most one, the
batches are pairwise disjoint, and concatenating them in round-robin
order rebuilds the input exactly. -/
theorem claim_C6 (l : List String) (hne : l ≠ []) (hnd : l.Nodup) :
    (domainBatches l).length = min 3 l.length
    ∧ (∀ b1 ∈ domainBatches l, ∀ b2 ∈ domainBatches l,
        b1.length ≤ b2.length + 1)
    ∧ List.Pairwise (fun b1 b2 => ∀ a, a ∈ b1 → a ∉ b2) (domainBatches l)
    ∧ rrConcat (domainBatches l) = l := by
  have hK : 0 < min 3 l.length := by
    have : 0 < l.length := List.length_pos.mpr hne
    omega
  rw [domainBatchesEq]
  refine ⟨by simp [batchesList], ?_, ?_,
    batchesReconstruct _ hK l.length l (le_refl _)⟩
  · intro b1 hb1 b2 hb2
    rcases List.mem_map.mp hb1 with ⟨s, hs, rfl⟩
    rcases List.mem_map.mp hb2 with ⟨t, ht, rfl⟩
    have hs2 := List.mem_range.mp hs
    have ht2 := List.mem_range.mp ht
    rcases Nat.le_total s t with hst | hts
    · exact (sliceSkew _ hK l.length l (le_refl _) s t hs2 ht2 hst).2
    · have h1 := (sliceSkew _ hK l.length l (le_refl _) t s ht2 hs2 hts).1
      omega
  · unfold batchesList
    rw [List.pairwise_map]
    refine List.Pairwise.imp_of_mem ?_ (List.pairwise_lt_range _)
    intro s t hsm htm hlt a has hat
    exact sliceDisjoint _ hK l.length l (le_refl _) hnd s t
      (List.mem_range.mp hsm) (List.mem_range.mp htm)
      (Nat.ne_of_lt hlt) a has hat

theorem claim_C6_witness :
    (["a", "b", "c", "d", "e", "f", "g"] : List String) ≠ [] ∧
    (["a", "b", "c", "d", "e", "f", "g"] : List String).Nodup ∧
    rrConcat (domainBatches ["a", "b", "c", "d", "e", "f", "g"])
      = ["a", "b", "c", "d", "e", "f", "g"] :=
  ⟨by decide, by decide,
   (claim_C6 ["a", "b", "c", "d", "e", "f", "g"] (by decide) (by decide)).2.2.2⟩

/-- C7: when an unexpected failure is raised while processing a domain
(between the availability check and the save), the worker's catch
handler best-effort persists an `error` record — appending only if the
domain is absent from a freshly re-loaded store — and swallows any
further failure of that attempt; and the loop over the partition
processes every domain regardless of per-domain failures (last
conjunct, for arbitrary oracles): a single domain's failure never aborts
the remaining partition. -/
theorem claim_C7 (o : StepOracle) (d : String) (w : WState)
    (hskip : d ∉ w.checked) (hthrow : o.bodyThrows = true) :
    (o.catchThrows = true →
      (domainStep o d w).shared = o.envDuring (o.envBefore w.shared) ∧
      (domainStep o d w).trace =
        w.trace ++ [WEvent.checkInvoked d, WEvent.errorSaveFailed d])
    ∧ (o.catchThrows = false →
      (d ∉ ((if o.catchReadFails then ([] : Store)
              else o.envDuring (o.envBefore w.shared)).map (fun e => e.domain)) →
        (domainStep o d w).shared =
          (if o.catchWriteFails then o.envDuring (o.envBefore w.shared)
           else (if o.catchReadFails then ([] : Store)
                 else o.envDuring (o.envBefore w.shared)) ++ [⟨d, "error"⟩]) ∧
        (domainStep o d w).trace =
          w.trace ++ [WEvent.checkInvoked d, WEvent.errorSaved d])
      ∧ (d ∈ ((if o.catchReadFails then ([] : Store)
              else o.envDuring (o.envBefore w.shared)).map (fun e => e.domain)) →
        (domainStep o d w).shared = o.envDuring (o.envBefore w.shared) ∧
        (domainStep o d w).trace =
          w.trace ++ [WEvent.checkInvoked d, WEvent.errorDiscarded d]))
    ∧ (∀ (os : Nat → StepOracle) (ds : List String) (i : Nat) (w2 : WState)
        (d2 : String), d2 ∈ ds →
        ∃ ev ∈ (runBatchAux os i w2 ds).trace, evDomain ev = d2) := by
  refine ⟨?_, ?_, fun os ds i w2 d2 hmem => runBatchAuxCovers os ds i w2 d2 hmem⟩
  · intro hct
    simp only [domainStep, if_neg hskip, hthrow, if_pos rfl, hct]
    constructor <;> simp
  · intro hct
    constructor
    · intro habsent
      simp only [domainStep, if_neg hskip, hthrow, if_pos rfl, hct,
        Bool.false_eq_true, if_false, if_neg habsent]
      constructor <;> simp
    · intro hpresent
      simp only [domainStep, if_neg hskip, hthrow, if_pos rfl, hct,
        Bool.false_eq_true, if_false, if_pos hpresent]
      constructor <;> simp

theorem claim_C7_witness :
    (let o : StepOracle :=
      { envBefore := id, checkStatus := "available", envDuring := id,
        bodyThrows := true, readFails := false, writeFails := false,
        catchThrows := false, catchReadFails := false, catchWriteFails := false };
     let w0 : WState :=
      { shared := [], currentResults := [], checked := [], trace := [] };
     ("a" ∉ w0.checked) ∧ o.bodyThrows = true ∧ o.catchThrows = false ∧
     (domainStep o "a" w0).shared = [⟨"a", "error"⟩] ∧
     (domainStep o "a" w0).trace =
       [WEvent.checkInvoked "a", WEvent.errorSaved "a"]) := by
  refine ⟨by decide, rfl, rfl, ?_⟩
  have h := ((claim_C7
    { envBefore := id, checkStatus := "available", envDuring := id,
      bodyThrows := true, readFails := false, writeFails := false,
      catchThrows := false, catchReadFails := false, catchWriteFails := false }
    "a"
    { shared := [], currentResults := [], checked := [], trace := [] }
    (by decide) rfl).2.1 rfl).1 (by decide)
  exact ⟨h.1, h.2⟩

/-- C8 counterexample: the claim says a missing input file exits with a
non-zero status.  In the code, `run` logs `Domains file not found` and
returns normally from inside its try-block, so its promise resolves,
the `run().catch(... process.exit(1))` handler never fires, and the
process exits with status 0 — the claimed non-zero exit is false. -/
theorem claim_C8_cex :
    processExitCode false "" [] false = 0 ∧
    ¬(processExitCode false "" [] false ≠ 0) := by
  exact ⟨rfl, fun h => h rfl⟩

/-- C8 (amended): a run in which all workers complete exits with status 0
even if some domains ended with status `error`; and moreover every run
exits with status 0 — `run` catches every failure of its body (including
a missing input file, which merely logs and returns) and resolves
normally, so the non-zero exit path of the top-level rejection handler
is unreachable. -/
theorem claim_C8 (inputExists : Bool) (content : String) (store : Store)
    (unexpected : Bool) :
    processExitCode inputExists content store unexpected = 0 := by
  unfold processExitCode runMain
  cases tryBody inputExists content store unexpected <;> rfl

/-- C9 counterexample: the claim says every stored domain is normalized
(lowercase, scheme and leading `www` stripped) and that the input is
de-duplicated under case normalization.  In the code the stored `domain`
field is the verbatim trimmed input line: a worker step for
`"http://www.Foo.com"` stores exactly that string, which still carries
its scheme, `www`, and upper-case letters; and `"A.com"`/`"a.com"` stay
two distinct entries after de-duplication. -/
theorem claim_C9_cex :
    dedupFirst (parseDomains "A.com\na.com") = ["A.com", "a.com"]
    ∧ (let o : StepOracle :=
        { envBefore := id, checkStatus := "available", envDuring := id,
          bodyThrows := false, readFails := false, writeFails := false,
          catchThrows := false, catchReadFails := false, catchWriteFails := false };
       let w0 : WState :=
        { shared := [], currentResults := [], checked := [], trace := [] };
       (domainStep o "http://www.Foo.com" w0).shared
         = [⟨"http://www.Foo.com", "available"⟩])
    ∧ strLower "http://www.Foo.com" ≠ "http://www.Foo.com"
    ∧ cleanDomain "http://www.Foo.com" ≠ "http://www.Foo.com" := by
  exact ⟨by decide, by decide, by decide, by decide⟩

/-- C9 (amended): the orchestrator de-duplicates the trimmed non-empty
input lines under exact string equality, keeping first occurrences in
input order (conjuncts 1-5); the scheme/`www` normalisation is applied
only when building the registrar search URL (conjunct 6); and the worker
stores the domain string verbatim in the appended record (last
conjunct). -/
theorem claim_C9 (content : String) (o : StepOracle) (d : String) (w : WState) :
    (dedupFirst (parseDomains content)).Nodup
    ∧ List.Sublist (dedupFirst (parseDomains content)) (parseDomains content)
    ∧ (∀ x, x ∈ dedupFirst (parseDomains content) ↔ x ∈ parseDomains content)
    ∧ (∀ (a : String) (l : List String),
        dedupFirst (a :: l) = a :: dedupFirst (l.filter (fun x => x ≠ a)))
    ∧ (∀ x ∈ parseDomains content,
        ∃ line ∈ splitOnChar '\n' content, x = trimStr line ∧ x ≠ "")
    ∧ searchUrl d = "https://www.name.com/domain/search/" ++ cleanDomain d
    ∧ (d ∉ w.checked → o.bodyThrows = false → o.readFails = false →
        o.writeFails = false →
        d ∉ (o.envDuring (o.envBefore w.shared)).map (fun e => e.domain) →
        (domainStep o d w).shared =
          o.envDuring (o.envBefore w.shared) ++ [⟨d, o.checkStatus⟩]) := by
  refine ⟨dedupFirstNodup _, dedupFirstSub _, fun x => dedupFirstMem _ x,
    dedupFirstCons, ?_, rfl, ?_⟩
  · intro x hx
    unfold parseDomains at hx
    rw [List.mem_filter] at hx
    rcases hx with ⟨hx1, hx2⟩
    rcases List.mem_map.mp hx1 with ⟨line, hline, rfl⟩
    exact ⟨line, hline, rfl, by simpa using hx2⟩
  · intro hskip hthrow hrf hwf habsent
    simp only [domainStep, if_neg hskip, hthrow, Bool.false_eq_true, if_false,
      hrf, hwf, if_neg habsent]

theorem claim_C9_witness :
    ("a" : String) ∉ (([] : Store).map (fun e => e.domain)) ∧
    (let o : StepOracle :=
      { envBefore := id, checkStatus := "available", envDuring := id,
        bodyThrows := false, readFails := false, writeFails := false,
        catchThrows := false, catchReadFails := false, catchWriteFails := false };
     let w0 : WState :=
      { shared := [], currentResults := [], checked := [], trace := [] };
     (domainStep o "a" w0).shared = [⟨"a", "available"⟩]) := by
  refine ⟨by decide, ?_⟩
  exact (claim_C9 ""
    { envBefore := id, checkStatus := "available", envDuring := id,
      bodyThrows := false, readFails := false, writeFails := false,
      catchThrows := false, catchReadFails := false, catchWriteFails := false }
    "a"
    { shared := [], currentResults := [], checked := [], trace := [] }).2.2.2.2.2.2
    (by decide) rfl rfl rfl (by decide)

/-- The concrete filesystem used by the C10 counterexample: the target
file holds the syntactically valid JSON document `null`. -/
def nullFS : FS :=
  { files := [("out/domain.json", Content.jsonDoc Json.null)],
    dirs := ["out"] }

/-- C10 counterexample: the claim says every file whose content parses
as valid JSON has its parsed value passed through unchanged.  For the
valid JSON document `null`, `results.length` in the log statement inside
the parse try-block throws a `TypeError`, so the parse catch runs
instead: `load` returns the empty array (not `null`), the original
content is quarantined at the timestamped path, and the target is reset
to an empty document — the value is not passed through and the
filesystem is mutated. -/
theorem claim_C10_cex :
    fsRead nullFS "out/domain.json" = some (Content.jsonDoc Json.null)
    ∧ (safelyReadResultsFile (fun _ => false) 7 "out/domain.json" nullFS).2
        = Json.arr []
    ∧ Json.arr [] ≠ Json.null
    ∧ fsRead (safelyReadResultsFile (fun _ => false) 7 "out/domain.json"
        nullFS).1.fs "out/domain.json" = some emptyDoc
    ∧ fsRead (safelyReadResultsFile (fun _ => false) 7 "out/domain.json"
        nullFS).1.fs ("out/domain.json" ++ ".backup." ++ toString 7)
        = some (Content.jsonDoc Json.null) := by
  refine ⟨rfl, rfl, ?_, rfl, rfl⟩
  intro h
  exact Json.noConfusion h

/-- C10 (amended): for any file whose content parses as JSON *other than
the bare document `null`*, `load` returns the parsed value as-is and
performs no further write: records with status strings outside the enum
and even values that are not arrays of records at all are passed through
unchanged to the caller.  The lone exception is the parsed value `null`,
on which the `results.length` log inside the parse try-block throws, so
that input takes the quarantine-and-reset path and yields `[]`. -/
theorem claim_C10 (oracle : Oracle) (now : Nat) (p : Path) (fs0 : FS) (j : Json)
    (hfalse : ∀ i, oracle i = false)
    (h : fsRead fs0 p = some (Content.jsonDoc j))
    (hnull : j ≠ Json.null) :
    (safelyReadResultsFile oracle now p fs0).2 = j ∧
    (safelyReadResultsFile oracle now p fs0).1.fs = fs0 := by
  rw [safelyReadSuccessEval oracle hfalse]
  have hhas : fsHasFile fs0 p = true := by simp [fsHasFile, h]
  cases j with
  | null => exact absurd rfl hnull
  | bool b =>
      exact ⟨by simp [readOps, hhas, h, readOpsContent],
             by simp [readOps, hhas, h, readOpsContent, applyEffs]⟩
  | num n =>
      exact ⟨by simp [readOps, hhas, h, readOpsContent],
             by simp [readOps, hhas, h, readOpsContent, applyEffs]⟩
  | str s =>
      exact ⟨by simp [readOps, hhas, h, readOpsContent],
             by simp [readOps, hhas, h, readOpsContent, applyEffs]⟩
  | arr elems =>
      exact ⟨by simp [readOps, hhas, h, readOpsContent],
             by simp [readOps, hhas, h, readOpsContent, applyEffs]⟩
  | obj fields =>
      exact ⟨by simp [readOps, hhas, h, readOpsContent],
             by simp [readOps, hhas, h, readOpsContent, applyEffs]⟩

/-- The concrete filesystem used by the C10 witness: the target file
holds JSON that is not an array of domain records at all. -/
def oddFS : FS :=
  { files := [("out/domain.json",
      Content.jsonDoc (Json.obj [("status", Json.str "banana")]))],
    dirs := ["out"] }

theorem claim_C10_witness :
    (∀ i : Nat, (fun _ : Nat => false) i = false) ∧
    fsRead oddFS "out/domain.json"
      = some (Content.jsonDoc (Json.obj [("status", Json.str "banana")])) ∧
    (Json.obj [("status", Json.str "banana")] ≠ Json.null) ∧
    (safelyReadResultsFile (fun _ => false) 7 "out/domain.json" oddFS).2
      = Json.obj [("status", Json.str "banana")] :=
  ⟨fun _ => rfl, rfl, fun h => Json.noConfusion h,
   (claim_C10 (fun _ => false) 7 "out/domain.json" oddFS
     (Json.obj [("status", Json.str "banana")]) (fun _ => rfl) rfl
     (fun h => Json.noConfusion h)).1⟩

end UrlCheck
